import Mathlib

/-!
Shallow embedding of the openclaw-dex core memory module
(src/agents/memory/core-memory.ts) and the autonomous behavior module
(src/agents/autonomous/behaviors.ts).

Strings are modelled as lists of characters (`Str`).  JavaScript records and
Maps are modelled as insertion-ordered association lists (`recGet`/`recSet`),
which matches JavaScript enumeration order for the non-numeric string keys
this code produces.  The file system is an association list from path to file
content; a missing key plays the role of ENOENT.  Wall-clock inputs
(`Date.now()`, ISO timestamps, formatted dates) are passed as explicit
parameters.
-/

abbrev Str := List Char

/-- The JavaScript whitespace characters relevant to this code base
(the ASCII ones plus NBSP and the BOM); used for `\s`, `trim` and
whitespace splitting. -/
def isJsSpace (c : Char) : Bool :=
  c = ' ' || c = '\t' || c = '\n' || c = '\r' ||
  c = Char.ofNat 11 || c = Char.ofNat 12 || c = Char.ofNat 160 || c = Char.ofNat 0xFEFF

/-- ASCII case folding for one character, the effect of
`String.prototype.toLowerCase` on ASCII input. -/
def asciiLower (c : Char) : Char :=
  if 'A' ≤ c ∧ c ≤ 'Z' then Char.ofNat (c.toNat + 32) else c

/-- `s.toLowerCase()` (ASCII fragment). -/
def jsToLower (s : Str) : Str := s.map asciiLower

/-- `s.trim()`: remove leading and trailing whitespace. -/
def jsTrim (s : Str) : Str :=
  ((s.dropWhile isJsSpace).reverse.dropWhile isJsSpace).reverse

/-- `parts.join(sep)`. -/
def joinWith (sep : Str) : List Str → Str
  | [] => []
  | [x] => x
  | x :: xs => x ++ sep ++ joinWith sep xs

/-- `s.split(sep)` for a single-character separator (empty pieces kept,
`"".split(sep) = [""]`). -/
def splitOnChar (sep : Char) : Str → List Str
  | [] => [[]]
  | c :: rest =>
    if c = sep then [] :: splitOnChar sep rest
    else
      match splitOnChar sep rest with
      | [] => [[c]]
      | p :: ps => (c :: p) :: ps

def splitNewline : Str → List Str := splitOnChar '\n'

def splitComma : Str → List Str := splitOnChar ','

/-- `s.split(/\s+/)`: split on maximal whitespace runs; a leading run yields
a leading empty piece, matching the JavaScript behavior.  A whitespace
character closes the current piece exactly when it is the last character of
its run. -/
def splitWsRuns : Str → List Str
  | [] => [[]]
  | c :: rest =>
    if isJsSpace c then
      match rest with
      | d :: _ => if isJsSpace d then splitWsRuns rest else [] :: splitWsRuns rest
      | [] => [] :: splitWsRuns rest
    else
      match splitWsRuns rest with
      | [] => [[c]]
      | p :: ps => (c :: p) :: ps

/-- `hay.includes(needle)`. -/
def infixOf (p s : Str) : Bool :=
  match s with
  | [] => p.isEmpty
  | _ :: t => p.isPrefixOf s || infixOf p t

/-- Lookup in a JavaScript object / Map modelled as an insertion-ordered
association list. -/
def recGet {α : Type} (m : List (Str × α)) (k : Str) : Option α :=
  match m with
  | [] => none
  | (k', v) :: rest => if k' = k then some v else recGet rest k

/-- `obj[k] = v` / `map.set(k, v)`: replace in place when the key exists,
append otherwise. -/
def recSet {α : Type} (m : List (Str × α)) (k : Str) (v : α) : List (Str × α) :=
  match m with
  | [] => [(k, v)]
  | (k', v') :: rest => if k' = k then (k', v) :: rest else (k', v') :: recSet rest k v

/-- `set.add(x)` on a JavaScript `Set` kept as an insertion-ordered list. -/
def setAdd (s : List Str) (x : Str) : List Str := if x ∈ s then s else s ++ [x]

/-- `[...new Set(list)]`. -/
def dedupKeep (l : List Str) : List Str := l.foldl setAdd []

/-- Stable insertion: the element goes in front of the first list element it
may precede (`le x y`), so ties keep their original relative order. -/
def jsSortInsert {α : Type} (le : α → α → Bool) (x : α) : List α → List α
  | [] => [x]
  | y :: ys => if le x y then x :: y :: ys else y :: jsSortInsert le x ys

/-- `Array.prototype.sort(comparator)` for a consistent comparator:
the unique stable sort with respect to `le x y` ("the comparator is
non-positive on `(x, y)`"), rendered as a stable insertion sort. -/
def jsSort {α : Type} (le : α → α → Bool) : List α → List α
  | [] => []
  | x :: xs => jsSortInsert le x (jsSort le xs)

def isLowerAlnum (c : Char) : Bool := ('a' ≤ c && c ≤ 'z') || ('0' ≤ c && c ≤ '9')

/-- `.replace(/[^a-z0-9]+/g, "_")`: collapse every maximal run of characters
outside `[a-z0-9]` into a single underscore.  The `Bool` flag records whether
the previous character belonged to such a run. -/
def collapseNonAlnum : Str → Bool → Str
  | [], _ => []
  | c :: rest, inRun =>
    if isLowerAlnum c then c :: collapseNonAlnum rest false
    else if inRun then collapseNonAlnum rest true
    else '_' :: collapseNonAlnum rest true

/-- `title.toLowerCase().replace(/[^a-z0-9]+/g, "_")` — the node id slug. -/
def slugOf (t : Str) : Str := collapseNonAlnum (jsToLower t) false

/-- `path.join(a, b)` for already-normalized segments. -/
def pathJoin (a b : Str) : Str := a ++ "/".data ++ b

-- ===========================================================================
-- Memory data model (core-memory.ts)
-- ===========================================================================

inductive MemoryTier
  | core
  | contextual
  | archival
deriving DecidableEq, Repr

structure MemoryIndexEntry where
  id : Str
  title : Str
  keywords : List Str
  tier : MemoryTier
  filePath : Str
  createdAt : Nat
  updatedAt : Nat
deriving DecidableEq, Repr

structure MemoryIndex where
  version : Nat := 1
  nodes : List (Str × MemoryIndexEntry)
  keywordMap : List (Str × List Str)
deriving DecidableEq, Repr

structure MemoryNode where
  id : Str
  title : Str
  keywords : List Str
  tier : MemoryTier
  content : Str
  createdAt : Nat
  updatedAt : Nat
  accessCount : Nat
  lastAccessedAt : Nat
deriving DecidableEq, Repr

abbrev FS := List (Str × Str)

-- ===========================================================================
-- Index parsing (parseMemoryIndexMarkdown)
-- ===========================================================================

/-- `keywords?:` tail of the entry regex: after the literal `keyword`
(matched case-insensitively) comes an optional `s` and then a colon. -/
def matchKeywordColon : Str → Option Str
  | c1 :: c2 :: t =>
    if asciiLower c1 = 's' ∧ c2 = ':' then some t
    else if c1 = ':' then some (c2 :: t) else none
  | [c1] => if c1 = ':' then some [] else none
  | [] => none

/-- Consume a literal (given in lower case) case-insensitively. -/
def dropCI : Str → Str → Option Str
  | [], s => some s
  | _ :: _, [] => none
  | l :: ls, c :: cs => if asciiLower c = asciiLower l then dropCI ls cs else none

/-- Characters matched by `.` in a JavaScript regex (no line terminators). -/
def isLineDotChar (c : Char) : Bool :=
  !(c = '\n' || c = '\r' || c = Char.ofNat 0x2028 || c = Char.ofNat 0x2029)

/-- Deterministic rendering of the anchored entry regex
`/^-\s*\[([^\]]+)\]\(([^)]+)\)\s*-?\s*keywords?:\s*(.+)$/i` applied to the
trimmed line, returning the trimmed title, the trimmed path, and the parsed
keyword list (`group3.trim().split(",").map(k => k.trim().toLowerCase())`). -/
def parseNodeLine (s : Str) : Option (Str × Str × List Str) :=
  match s with
  | '-' :: r0 =>
    match r0.dropWhile isJsSpace with
    | '[' :: r1 =>
      let title := r1.takeWhile (fun c => !(c = ']' : Bool))
      (match r1.dropWhile (fun c => !(c = ']' : Bool)) with
      | ']' :: '(' :: r2 =>
        let fp := r2.takeWhile (fun c => !(c = ')' : Bool))
        (match r2.dropWhile (fun c => !(c = ')' : Bool)) with
        | ')' :: r3 =>
          if title.isEmpty || fp.isEmpty then none
          else
            let r4 := r3.dropWhile isJsSpace
            let r5 := match r4 with
              | '-' :: t => t.dropWhile isJsSpace
              | _ => r4
            (match dropCI "keyword".data r5 with
            | some r6 =>
              (match matchKeywordColon r6 with
              | some r7 =>
                let r8 := r7.dropWhile isJsSpace
                if r8.isEmpty || !(r8.all isLineDotChar) then none
                else
                  some (jsTrim title, jsTrim fp,
                    (splitComma (jsTrim r8)).map (fun k => jsToLower (jsTrim k)))
              | none => none)
            | none => none)
        | _ => none)
      | _ => none)
    | _ => none
  | _ => none

/-- `keywordMap` update: create the id list for a fresh keyword, then push the
id if it is not already present. -/
def kwMapAdd (m : List (Str × List Str)) (kw id : Str) : List (Str × List Str) :=
  match recGet m kw with
  | none => recSet m kw [id]
  | some ids => if id ∈ ids then m else recSet m kw (ids ++ [id])

/-- One line of the parse loop: tier headers switch the current tier
(`includes` checks on the lower-cased trimmed line, in source order), other
lines are entry candidates; unrecognized lines are ignored. -/
def parseIndexLine (now : Nat) (st : MemoryTier × MemoryIndex) (line : Str) :
    MemoryTier × MemoryIndex :=
  let trimmed := jsTrim line
  let low := jsToLower trimmed
  if infixOf "## core".data low then (.core, st.2)
  else if infixOf "## contextual".data low then (.contextual, st.2)
  else if infixOf "## archival".data low then (.archival, st.2)
  else
    match parseNodeLine trimmed with
    | none => st
    | some (title, filePath, keywords) =>
      let id := slugOf title
      let entry : MemoryIndexEntry := ⟨id, title, keywords, st.1, filePath, now, now⟩
      (st.1, { st.2 with
        nodes := recSet st.2.nodes id entry,
        keywordMap := keywords.foldl (fun m kw => kwMapAdd m kw id) st.2.keywordMap })

def parseMemoryIndexMarkdown (now : Nat) (content : Str) : MemoryIndex :=
  ((splitNewline content).foldl (parseIndexLine now) (.contextual, ⟨1, [], []⟩)).2

/-- `loadMemoryIndex`: read the index file and parse it; a missing file is
`null` (ENOENT). -/
def loadMemoryIndex (fs : FS) (indexPath : Str) (now : Nat) : Option MemoryIndex :=
  (recGet fs indexPath).map (parseMemoryIndexMarkdown now)

-- ===========================================================================
-- Index serialization (serializeMemoryIndexToMarkdown)
-- ===========================================================================

def tierName : MemoryTier → Str
  | .core => "core".data
  | .contextual => "contextual".data
  | .archival => "archival".data

/-- `tier.charAt(0).toUpperCase() + tier.slice(1)`. -/
def capitalizeAscii : Str → Str
  | [] => []
  | c :: rest => (if 'a' ≤ c ∧ c ≤ 'z' then Char.ofNat (c.toNat - 32) else c) :: rest

def tierHeaderLine (t : MemoryTier) : Str :=
  "## ".data ++ capitalizeAscii (tierName t) ++ " Memories".data

/-- `- [title](path) - keywords: k1, k2` -/
def entryLine (e : MemoryIndexEntry) : Str :=
  "- [".data ++ e.title ++ "](".data ++ e.filePath ++ ") - keywords: ".data ++
    joinWith ", ".data e.keywords

/-- The lines contributed by one tier: skipped when the tier holds no node,
otherwise header, blank, the entry lines, blank. -/
def tierBlock (idx : MemoryIndex) (t : MemoryTier) : List Str :=
  let nodes := (idx.nodes.map Prod.snd).filter (fun n => decide (n.tier = t))
  if nodes = [] then []
  else [tierHeaderLine t, []] ++ nodes.map entryLine ++ [[]]

def serLines (idx : MemoryIndex) : List Str :=
  ["# Memory Index".data, [],
   "> Auto-generated by Core Memory System. Edit with care.".data, []] ++
  tierBlock idx .core ++ tierBlock idx .contextual ++ tierBlock idx .archival

def serializeMemoryIndexToMarkdown (idx : MemoryIndex) : Str :=
  joinWith "\n".data (serLines idx)

def saveMemoryIndex (fs : FS) (indexPath : Str) (idx : MemoryIndex) : FS :=
  recSet fs indexPath (serializeMemoryIndexToMarkdown idx)

-- ===========================================================================
-- Node operations
-- ===========================================================================

def loadMemoryNode (fs : FS) (workspaceDir : Str) (entry : MemoryIndexEntry) (now : Nat) :
    Option MemoryNode :=
  (recGet fs (pathJoin workspaceDir entry.filePath)).map fun content =>
    ⟨entry.id, entry.title, entry.keywords, entry.tier, content,
     entry.createdAt, entry.updatedAt, 0, now⟩

/-- `createMemoryNode`: write the rendered node document, re-read the index
(missing index = start from empty), overwrite the entry keyed by the slug id,
extend the keyword map, and persist the index. -/
def createMemoryNode (fs : FS) (workspaceDir indexPath : Str) (title : Str)
    (keywords : List Str) (content : Str) (tier : MemoryTier) (now : Nat) (nowIso : Str) :
    FS × MemoryNode :=
  let id := slugOf title
  let filePath := pathJoin "memory/nodes".data (id ++ ".md".data)
  let fullPath := pathJoin workspaceDir filePath
  let nodeContent := joinWith "\n".data
    ["# ".data ++ title, [],
     "> Keywords: ".data ++ joinWith ", ".data keywords,
     "> Created: ".data ++ nowIso, [], content]
  let fs1 := recSet fs fullPath nodeContent
  let index := (loadMemoryIndex fs1 (pathJoin workspaceDir indexPath) now).getD ⟨1, [], []⟩
  let lowered := keywords.map jsToLower
  let entry : MemoryIndexEntry := ⟨id, title, lowered, tier, filePath, now, now⟩
  let index' : MemoryIndex :=
    { index with
      nodes := recSet index.nodes id entry,
      keywordMap := lowered.foldl (fun m kw => kwMapAdd m kw id) index.keywordMap }
  let fs2 := saveMemoryIndex fs1 (pathJoin workspaceDir indexPath) index'
  (fs2, ⟨id, title, lowered, tier, nodeContent, now, now, 0, now⟩)

-- ===========================================================================
-- Keyword extraction and matching
-- ===========================================================================

def isWordChar (c : Char) : Bool :=
  ('a' ≤ c && c ≤ 'z') || ('A' ≤ c && c ≤ 'Z') || ('0' ≤ c && c ≤ '9') || c = '_'

/-- Adjacent 2-word and 3-word phrases, in source push order. -/
def phrasePairs : List Str → List Str
  | a :: b :: c :: rest =>
    (a ++ " ".data ++ b) :: (a ++ " ".data ++ b ++ " ".data ++ c) :: phrasePairs (b :: c :: rest)
  | [a, b] => [a ++ " ".data ++ b]
  | _ => []

/-- `extractKeywordsFromContext`: lower-case, replace `[^\w\s]` by a space,
split on whitespace, keep tokens longer than 2 characters, add 2/3-word
phrases, deduplicate preserving first occurrence. -/
def extractKeywordsFromContext (text : Str) : List Str :=
  let words := (splitWsRuns ((jsToLower text).map
      (fun c => if isWordChar c || isJsSpace c then c else ' '))).filter
      (fun w => decide (w.length > 2))
  dedupKeep (words ++ phrasePairs words)

/-- The shared inner block of `findMatchingNodes`: for each candidate node id,
include it when it resolves to a node of an accepted tier, and record the
reported keyword `mk` on first contribution. -/
def addHits (idx : MemoryIndex) (tiers : List MemoryTier) (mk : Str) (nodeIds : List Str)
    (acc : List Str × List Str) : List Str × List Str :=
  nodeIds.foldl (fun p nodeId =>
    match recGet idx.nodes nodeId with
    | some node => if node.tier ∈ tiers then (setAdd p.1 nodeId, setAdd p.2 mk) else p
    | none => p) acc

def findMatchingNodes (idx : MemoryIndex) (keywords : List Str) (tiers : List MemoryTier) :
    List MemoryIndexEntry × List Str :=
  let init : List Str × List Str :=
    (if MemoryTier.core ∈ tiers then
       (idx.nodes.map Prod.snd).foldl
         (fun s n => if n.tier = .core then setAdd s n.id else s) []
     else [], [])
  let after := keywords.foldl (fun acc keyword =>
    let acc1 := match recGet idx.keywordMap keyword with
      | some nodeIds => addHits idx tiers keyword nodeIds acc
      | none => acc
    idx.keywordMap.foldl (fun a p =>
      if infixOf keyword p.1 || infixOf p.1 keyword then addHits idx tiers p.1 p.2 a
      else a) acc1) init
  ((after.1).filterMap (recGet idx.nodes), after.2)

-- ===========================================================================
-- Injection (injectMemories)
-- ===========================================================================

def charsPerToken : Nat := 4

def tierOrderNum : MemoryTier → Nat
  | .core => 0
  | .contextual => 1
  | .archival => 2

/-- The sort comparator of `injectMemories` as a stable-sort `le` relation:
`entryLE a b` holds exactly when the comparator returns a non-positive value
on `(a, b)`. -/
def entryLE (a b : MemoryIndexEntry) : Bool :=
  decide (tierOrderNum a.tier < tierOrderNum b.tier) ||
  (decide (tierOrderNum a.tier = tierOrderNum b.tier) && decide (b.updatedAt ≤ a.updatedAt))

/-- The budget loop of `injectMemories`: skip entries whose node file is
missing, stop (`break`) when a loaded node would push the accumulated
character count past the budget and something was already accepted. -/
def packEntries (fs : FS) (workspaceDir : Str) (now maxChars : Nat) :
    List MemoryIndexEntry → List MemoryNode → Nat → List MemoryNode × Nat
  | [], nodes, totalChars => (nodes, totalChars)
  | e :: rest, nodes, totalChars =>
    match loadMemoryNode fs workspaceDir e now with
    | none => packEntries fs workspaceDir now maxChars rest nodes totalChars
    | some node =>
      if totalChars + node.content.length > maxChars ∧ nodes.length > 0 then
        (nodes, totalChars)
      else
        packEntries fs workspaceDir now maxChars rest (nodes ++ [node])
          (totalChars + node.content.length)

/-- Sort matched entries with the comparator and run the budget loop;
returns the loaded nodes and the accumulated character count. -/
def assembleNodes (fs : FS) (workspaceDir : Str) (entries : List MemoryIndexEntry)
    (maxTokens now : Nat) : List MemoryNode × Nat :=
  packEntries fs workspaceDir now (maxTokens * charsPerToken)
    (jsSort entryLE entries) [] 0

structure MemoryInjectionResult where
  injected : Bool
  nodes : List MemoryNode
  totalTokens : Nat
  matchedKeywords : List Str
deriving DecidableEq, Repr

structure CoreMemoryConfig where
  enabled : Option Bool := none
  indexPath : Option Str := none
  nodesDir : Option Str := none
  maxTokens : Option Nat := none
  tiers : Option (List MemoryTier) := none
  autoCreate : Option Bool := none
  coreKeywords : Option (List Str) := none

/-- JavaScript `||` default for a string option (empty string is falsy). -/
def jsOrStr (o : Option Str) (d : Str) : Str :=
  match o with
  | some s => if s = [] then d else s
  | none => d

/-- JavaScript `||` default for a numeric option (`0` is falsy). -/
def jsOrNat (o : Option Nat) (d : Nat) : Nat :=
  match o with
  | some n => if n = 0 then d else n
  | none => d

/-- `Math.ceil(totalChars / CHARS_PER_TOKEN)` on natural inputs. -/
def ceilDivTok (n : Nat) : Nat := (n + charsPerToken - 1) / charsPerToken

def injectMemories (fs : FS) (workspaceDir : Str) (conversationContext : Str)
    (config : CoreMemoryConfig) (now : Nat) : MemoryInjectionResult :=
  let indexPath := pathJoin workspaceDir (jsOrStr config.indexPath "memory/index.md".data)
  let maxTokens := jsOrNat config.maxTokens 4000
  let tiers := config.tiers.getD [.core, .contextual]
  match loadMemoryIndex fs indexPath now with
  | none => ⟨false, [], 0, []⟩
  | some index =>
    if index.nodes = [] then ⟨false, [], 0, []⟩
    else
      let contextKeywords := extractKeywordsFromContext conversationContext
      let allKeywords := dedupKeep (contextKeywords ++ config.coreKeywords.getD [])
      let matched := findMatchingNodes index allKeywords tiers
      if matched.1 = [] then ⟨false, [], 0, []⟩
      else
        let packed := assembleNodes fs workspaceDir matched.1 maxTokens now
        ⟨!packed.1.isEmpty, packed.1, ceilDivTok packed.2, matched.2⟩

-- ===========================================================================
-- Autonomous behavior module (behaviors.ts): data model
-- ===========================================================================

/-- JavaScript numbers in the scheduler are modelled as rationals so that
fractional hour thresholds stay exact. -/
structure DreamState where
  lastDreamAt : Option ℚ
  lastUserActivityAt : Option ℚ
  pendingConsolidation : List Str
  insights : List Str
deriving DecidableEq, Repr

structure CompletedTopic where
  topic : Str
  completedAt : ℚ
  articlesFound : Nat
deriving DecidableEq, Repr

structure MorningReport where
  date : Str
  dreamSummary : Option Str := none
  researchSummary : Option Str := none
  pendingQuestions : List Str
  suggestedTopics : List Str
deriving DecidableEq, Repr

structure ResearchState where
  lastResearchAt : Option ℚ
  topicsQueue : List Str
  completedTopics : List CompletedTopic
  pendingReport : Option MorningReport
deriving DecidableEq, Repr

structure AutonomousConfigSimple where
  dreamModeEnabled : Option Bool := none
  researchModeEnabled : Option Bool := none
  morningReportEnabled : Option Bool := none
  dreamIdleHours : Option ℚ := none
  researchIdleHours : Option ℚ := none
  morningReportHour : Option Nat := none

/-- Persisted per-workspace behavior state: the two JSON state documents
(`none` = missing or unreadable file, which loads as defaults), the set of
existing morning-report file dates, and the daily log documents consulted by
topic detection. -/
structure BehaviorFS where
  dreamState : Option DreamState := none
  researchState : Option ResearchState := none
  reportDates : List Str := []
  logFiles : FS := []

def defaultDreamState : DreamState := ⟨none, none, [], []⟩

def defaultResearchState : ResearchState := ⟨none, [], [], none⟩

def loadDreamState (fs : BehaviorFS) : DreamState := fs.dreamState.getD defaultDreamState

def saveDreamState (fs : BehaviorFS) (s : DreamState) : BehaviorFS :=
  { fs with dreamState := some s }

def loadResearchState (fs : BehaviorFS) : ResearchState :=
  fs.researchState.getD defaultResearchState

def saveResearchState (fs : BehaviorFS) (s : ResearchState) : BehaviorFS :=
  { fs with researchState := some s }

/-- JavaScript truthiness of a nullable timestamp (`null` and `0` are falsy). -/
def truthyTime : Option ℚ → Bool
  | none => false
  | some x => decide (x ≠ 0)

-- ===========================================================================
-- Scheduler gates (simplified Dex interface)
-- ===========================================================================

/-- `shouldDream`: disabled only by an explicit `false`; returns false while
the user has been active within `dreamIdleHours` (default 3) or a dream
happened within the last 6 hours. -/
def shouldDream (fs : BehaviorFS) (config : Option AutonomousConfigSimple) (now : ℚ) : Bool :=
  if (config.bind (·.dreamModeEnabled)) = some false then false
  else
    let state := loadDreamState fs
    let idleMs := (config.bind (·.dreamIdleHours)).getD 3 * 60 * 60 * 1000
    if truthyTime state.lastUserActivityAt &&
        decide (now - (state.lastUserActivityAt.getD 0) < idleMs) then false
    else if truthyTime state.lastDreamAt &&
        decide (now - (state.lastDreamAt.getD 0) < 6 * 60 * 60 * 1000) then false
    else true

/-- `shouldResearch`: the idle signal is read from the dream state; research
is additionally throttled to once per 12 hours. -/
def shouldResearch (fs : BehaviorFS) (config : Option AutonomousConfigSimple) (now : ℚ) : Bool :=
  if (config.bind (·.researchModeEnabled)) = some false then false
  else
    let state := loadResearchState fs
    let idleMs := (config.bind (·.researchIdleHours)).getD 6 * 60 * 60 * 1000
    let dreamState := loadDreamState fs
    if truthyTime dreamState.lastUserActivityAt &&
        decide (now - (dreamState.lastUserActivityAt.getD 0) < idleMs) then false
    else if truthyTime state.lastResearchAt &&
        decide (now - (state.lastResearchAt.getD 0) < 12 * 60 * 60 * 1000) then false
    else true

/-- `shouldSendMorningReport`: only within the configured report hour, and
only while no report file exists for today's date. -/
def shouldSendMorningReport (fs : BehaviorFS) (config : Option AutonomousConfigSimple)
    (currentHour : Nat) (todayStr : Str) : Bool :=
  if (config.bind (·.morningReportEnabled)) = some false then false
  else if currentHour ≠ (config.bind (·.morningReportHour)).getD 8 then false
  else !(todayStr ∈ fs.reportDates)

-- ===========================================================================
-- Recorders
-- ===========================================================================

def recordActivity (fs : BehaviorFS) (now : ℚ) : BehaviorFS :=
  saveDreamState fs { loadDreamState fs with lastUserActivityAt := some now }

def recordDream (fs : BehaviorFS) (now : ℚ) : BehaviorFS :=
  saveDreamState fs { loadDreamState fs with lastDreamAt := some now }

def recordResearch (fs : BehaviorFS) (now : ℚ) : BehaviorFS :=
  saveResearchState fs { loadResearchState fs with lastResearchAt := some now }

/-- `recordMorningReport`: write today's report file, then clear the
completed-topic list and the insight list. -/
def recordMorningReport (fs : BehaviorFS) (todayStr : Str) : BehaviorFS :=
  let fs1 := { fs with reportDates := setAdd fs.reportDates todayStr }
  let fs2 := saveResearchState fs1 { loadResearchState fs1 with completedTopics := [] }
  saveDreamState fs2 { loadDreamState fs2 with insights := [] }

-- ===========================================================================
-- Research topic detection (detectResearchTopics)
-- ===========================================================================

/-- The keyword-frequency pass: for every inverted-map entry and every node
id it references that resolves to a node, increment the counter of every
keyword of that node. -/
def bumpFreq (m : List (Str × Nat)) (k : Str) : List (Str × Nat) :=
  match recGet m k with
  | none => recSet m k 1
  | some n => recSet m k (n + 1)

def buildFreq (idx : MemoryIndex) : List (Str × Nat) :=
  idx.keywordMap.foldl (fun freq p =>
    p.2.foldl (fun freq nodeId =>
      match recGet idx.nodes nodeId with
      | some node => node.keywords.foldl bumpFreq freq
      | none => freq) freq) []

/-- Descending order on the counts, the `(a, b) => b[1] - a[1]` comparator. -/
def freqLE (a b : Str × Nat) : Bool := decide (b.2 ≤ a.2)

/-- Top ten keywords of the stable descending sort of the frequency map. -/
def rankedTopics (idx : MemoryIndex) : List Str :=
  ((jsSort freqLE (buildFreq idx)).take 10).map Prod.fst

/-- The four cue literals of the interest regex, in alternation order. -/
def cue1 : Str := "interested in".data
def cue2 : Str := "learn about".data
def cue3 : Str := "curious about".data
def cue4 : Str := "want to know".data

/-- Match one of the cue alternatives case-insensitively at the start of `s`,
returning the cue that matched. -/
def matchCue (s : Str) : Option Str :=
  match dropCI cue1 s with
  | some _ => some cue1
  | none =>
    match dropCI cue2 s with
    | some _ => some cue2
    | none =>
      match dropCI cue3 s with
      | some _ => some cue3
      | none =>
        match dropCI cue4 s with
        | some _ => some cue4
        | none => none

/-- `\s+(\w+(?:\s+\w+)?)` after the cue: mandatory whitespace, one word,
optionally one more whitespace-separated word; returns the consumed text. -/
def matchTopicPart (s : Str) : Option Str :=
  let sp := s.takeWhile isJsSpace
  if sp.isEmpty then none
  else
    let r1 := s.dropWhile isJsSpace
    let w1 := r1.takeWhile isWordChar
    if w1.isEmpty then none
    else
      let r2 := r1.dropWhile isWordChar
      let sp2 := r2.takeWhile isJsSpace
      let r3 := r2.dropWhile isJsSpace
      let w2 := r3.takeWhile isWordChar
      if !sp2.isEmpty && !w2.isEmpty then some (sp ++ w1 ++ sp2 ++ w2)
      else some (sp ++ w1)

/-- One attempt of the global interest regex at the current position:
the full match text and its length. -/
def tryMatchAt (s : Str) : Option (Str × Nat) :=
  match matchCue s with
  | none => none
  | some cue =>
    match matchTopicPart (s.drop cue.length) with
    | none => none
    | some tp => some (s.take cue.length ++ tp, cue.length + tp.length)

/-- The global scan of `content.match(/.../gi)`: collect non-overlapping
matches left to right, advancing past each match (at least one character,
the JavaScript empty-match rule). -/
def scanInterests : Str → List Str
  | [] => []
  | c :: rest =>
    match tryMatchAt (c :: rest) with
    | some (m, n) => m :: scanInterests ((c :: rest).drop (n.max 1))
    | none => scanInterests rest
termination_by s => s.length
decreasing_by
  · have h1 : 1 ≤ n.max 1 := Nat.le_max_right n 1
    simp only [List.length_drop, List.length_cons]
    omega
  · simp

/-- `match.replace(/^(interested in|learn about|curious about|want to know)\s+/i, "")`. -/
def stripCue (s : Str) : Str :=
  match matchCue s with
  | some cue =>
    let r := s.drop cue.length
    if (r.takeWhile isJsSpace).isEmpty then s else r.dropWhile isJsSpace
  | none => s

/-- Fold the scraped matches of one daily log into the topic list,
lower-casing and deduplicating against what was already collected. -/
def scrapeLog (topics : List Str) (content : Str) : List Str :=
  (scanInterests content).foldl (fun ts m =>
    let topic := stripCue m
    if topic ≠ [] ∧ ¬ jsToLower topic ∈ ts then ts ++ [jsToLower topic] else ts) topics

/-- `detectResearchTopics`: ranked keywords from the index (when present)
followed by interest phrases scraped from today's and yesterday's daily
logs. -/
def detectResearchTopics (fs : FS) (workspaceDir todayStr yesterdayStr : Str)
    (memoryIndex : Option MemoryIndex) : List Str :=
  let topics := match memoryIndex with
    | some idx => rankedTopics idx
    | none => []
  [todayStr, yesterdayStr].foldl (fun ts d =>
    match recGet fs (pathJoin workspaceDir ("memory/".data ++ d ++ ".md".data)) with
    | some content => scrapeLog ts content
    | none => ts) topics

/-- Spec-side ranking weight: the number of `(inverted-map entry, node)`
visits in which keyword `k` occurs in the visited node's keyword list. -/
def visitWeight (idx : MemoryIndex) (k : Str) : Nat :=
  (idx.keywordMap.map (fun p =>
    (p.2.map (fun nodeId =>
      match recGet idx.nodes nodeId with
      | some node => node.keywords.count k
      | none => 0)).sum)).sum

/-- Spec-side node-reference count for a keyword: the number of node ids its
inverted-map entry lists. -/
def nodeRefCount (idx : MemoryIndex) (k : Str) : Nat :=
  ((recGet idx.keywordMap k).getD []).length

-- ===========================================================================
-- Spec-side descriptions used by the claims
-- ===========================================================================

/-- Spec-side packing policy (claim C3 wording): after the first node,
a node is rejected exactly when adding it would exceed the budget, and the
accumulation stops at the first rejection. -/
def specGreedyRest (budget : Nat) : Nat → List MemoryNode → List MemoryNode
  | _, [] => []
  | acc, n :: rest =>
    if acc + n.content.length > budget then []
    else n :: specGreedyRest budget (acc + n.content.length) rest

/-- Spec-side packing policy (claim C3 wording): the first loadable node is
always accepted regardless of its size. -/
def specGreedy (budget : Nat) : List MemoryNode → List MemoryNode
  | [] => []
  | n :: rest => n :: specGreedyRest budget n.content.length rest

/-- Claim C3 ordering: tier precedence, then descending update time. -/
def specEntryOrder (a b : MemoryIndexEntry) : Prop :=
  tierOrderNum a.tier < tierOrderNum b.tier ∨
    (tierOrderNum a.tier = tierOrderNum b.tier ∧ b.updatedAt ≤ a.updatedAt)

-- ===========================================================================
-- Well-formedness used by the amended round-trip claim (C1)
-- ===========================================================================

/-- Characters that survive the index round trip: ASCII, no `#` (so no line
is mistaken for a tier header), no line terminators. -/
def charOK (c : Char) : Bool :=
  c.toNat < 128 && !(c = '#') && !(c = '\n') && !(c = '\r')

def headNotSpace : Str → Bool
  | [] => false
  | c :: _ => !isJsSpace c

/-- Nonempty and unchanged by `trim`. -/
def trimStable (s : Str) : Bool := headNotSpace s && headNotSpace s.reverse

def titleOK (t : Str) : Bool :=
  trimStable t && t.all (fun c => charOK c && !(c = ']' : Bool))

def pathOK (p : Str) : Bool :=
  trimStable p && p.all (fun c => charOK c && !(c = ')' : Bool))

def keywordOK (k : Str) : Bool :=
  trimStable k && k.all (fun c => charOK c && !(c = ',' : Bool) && decide (asciiLower c = c))

def entryOK (e : MemoryIndexEntry) : Bool :=
  titleOK e.title && pathOK e.filePath && !e.keywords.isEmpty && e.keywords.all keywordOK

/-- Round-trip well-formedness of an index: a non-empty node map keyed by the
slug ids of the titles, with pairwise distinct keys and serialization-safe
entry fields. -/
def indexOK (idx : MemoryIndex) : Prop :=
  idx.nodes ≠ [] ∧ (idx.nodes.map Prod.fst).Nodup ∧
    ∀ p ∈ idx.nodes, p.1 = p.2.id ∧ p.2.id = slugOf p.2.title ∧ entryOK p.2 = true

/-- The entry a parse of a serialized well-formed entry produces in tier `t`
at parse time `now`. -/
def reEntry (t : MemoryTier) (now : Nat) (e : MemoryIndexEntry) : MemoryIndexEntry :=
  ⟨e.id, e.title, e.keywords, t, e.filePath, now, now⟩

-- ===========================================================================
-- Concrete claim inputs
-- ===========================================================================

/-- C1 counterexample index: a single well-keyed node whose title contains a
closing bracket (`a]b`, slug `a_b`, lower-case keyword), violating none of
the documented index invariants. -/
def idxBracket : MemoryIndex :=
  ⟨1, [("a_b".data,
       ⟨"a_b".data, "a]b".data, ["dog".data], .contextual, "memory/nodes/a_b.md".data, 0, 0⟩)],
   [("dog".data, ["a_b".data])]⟩

/-- C2 index document: three contextual nodes all keyed to `dog`. -/
def idxMdC2 : Str :=
  ("## Contextual Memories\n- [Aaa](memory/nodes/a.md) - keywords: dog\n" ++
   "- [Bbb](memory/nodes/b.md) - keywords: dog\n- [Ccc](memory/nodes/c.md) - keywords: dog").data

/-- C2 counterexample file system: node contents of 9000, 50 and 50
characters, exactly the sizes named by the claim. -/
def fsC2 : FS :=
  [("ws/memory/index.md".data, idxMdC2),
   ("ws/memory/nodes/a.md".data, List.replicate 9000 'a'),
   ("ws/memory/nodes/b.md".data, List.replicate 50 'b'),
   ("ws/memory/nodes/c.md".data, List.replicate 50 'c')]

/-- C2 amended file system: the first node is genuinely oversized (17000
characters against the 16000-character budget). -/
def fsC2A : FS :=
  [("ws/memory/index.md".data, idxMdC2),
   ("ws/memory/nodes/a.md".data, List.replicate 17000 'a'),
   ("ws/memory/nodes/b.md".data, List.replicate 50 'b'),
   ("ws/memory/nodes/c.md".data, List.replicate 50 'c')]

/-- C4 counterexample index: keyword `b` is referenced by two nodes, the
other keywords by a single node that carries five keywords. -/
def idxRank : MemoryIndex :=
  ⟨1, [("n1".data, ⟨"n1".data, "N1".data,
        ["a".data, "c".data, "d".data, "e".data, "f".data], .contextual, "p1".data, 0, 0⟩),
      ("n2".data, ⟨"n2".data, "N2".data, ["b".data], .contextual, "p2".data, 0, 0⟩),
      ("n3".data, ⟨"n3".data, "N3".data, ["b".data], .contextual, "p3".data, 0, 0⟩)],
   [("a".data, ["n1".data]), ("c".data, ["n1".data]), ("d".data, ["n1".data]),
    ("e".data, ["n1".data]), ("f".data, ["n1".data]), ("b".data, ["n2".data, "n3".data])]⟩

/-- C8 index: one core node (keyword `identity`) and one contextual node
(keywords `dog`, `pet`). -/
def idxPets : MemoryIndex :=
  ⟨1, [("identity".data, ⟨"identity".data, "Identity".data, ["identity".data], .core,
        "memory/nodes/identity.md".data, 0, 0⟩),
      ("max".data, ⟨"max".data, "Max".data, ["dog".data, "pet".data], .contextual,
        "memory/nodes/max.md".data, 0, 0⟩)],
   [("identity".data, ["identity".data]), ("dog".data, ["max".data]),
    ("pet".data, ["max".data])]⟩

-- ===========================================================================
-- Helper lemmas: characters
-- ===========================================================================

theorem charOfNat_toNat {n : Nat} (h : n.isValidChar) : (Char.ofNat n).toNat = n := by
  simp [Char.ofNat, Char.toNat, h, Char.ofNatAux]
  rfl

theorem asciiLower_hash {c : Char} (h : asciiLower c = '#') : c = '#' := by
  by_cases hc : 'A' ≤ c ∧ c ≤ 'Z'
  · exfalso
    have h65 : 65 ≤ c.toNat := hc.1
    have h90 : c.toNat ≤ 90 := hc.2
    have hv : (c.toNat + 32).isValidChar := Or.inl (by omega)
    have hlow : asciiLower c = Char.ofNat (c.toNat + 32) := by simp [asciiLower, hc]
    have h35 : (Char.ofNat (c.toNat + 32)).toNat = ('#').toNat := by rw [← hlow, h]
    rw [charOfNat_toNat hv] at h35
    have : ('#').toNat = 35 := rfl
    omega
  · simpa [asciiLower, hc] using h

-- ===========================================================================
-- Helper lemmas: records, sets and folds
-- ===========================================================================

theorem recGet_recSet {α : Type} (m : List (Str × α)) (k k' : Str) (v : α) :
    recGet (recSet m k v) k' = if k = k' then some v else recGet m k' := by
  induction m with
  | nil => simp [recSet, recGet]
  | cons a rest ih =>
    obtain ⟨ka, va⟩ := a
    by_cases hak : ka = k
    · subst hak
      by_cases hk' : ka = k' <;> simp [recSet, recGet, hk']
    · by_cases hk' : ka = k'
      · subst hk'
        have : ¬ k = ka := fun hh => hak hh.symm
        simp [recSet, recGet, hak, this]
      · simp [recSet, recGet, hak, hk', ih]

theorem recSet_of_not_mem_keys {α : Type} {m : List (Str × α)} {k : Str} (v : α)
    (h : k ∉ m.map Prod.fst) : recSet m k v = m ++ [(k, v)] := by
  induction m with
  | nil => simp [recSet]
  | cons a rest ih =>
    obtain ⟨ka, va⟩ := a
    simp only [List.map_cons, List.mem_cons, not_or] at h
    have hk : ¬ ka = k := fun hh => h.1 hh.symm
    simp [recSet, hk, ih h.2]

theorem recGet_of_mem {α : Type} {m : List (Str × α)} {k : Str} {v : α}
    (hn : (m.map Prod.fst).Nodup) (h : (k, v) ∈ m) : recGet m k = some v := by
  induction m with
  | nil => simp at h
  | cons a rest ih =>
    obtain ⟨ka, va⟩ := a
    simp only [List.map_cons, List.nodup_cons] at hn
    rcases List.mem_cons.mp h with h1 | h1
    · injection h1 with h1a h1b
      subst h1a
      subst h1b
      simp [recGet]
    · have hk : ka ≠ k := by
        intro hh
        subst hh
        exact hn.1 (List.mem_map.mpr ⟨(ka, v), h1, rfl⟩)
      simp [recGet, hk, ih hn.2 h1]

theorem mem_setAdd_self (s : List Str) (x : Str) : x ∈ setAdd s x := by
  by_cases h : x ∈ s <;> simp [setAdd, h]

theorem mem_setAdd_of_mem {s : List Str} {x : Str} (y : Str) (h : x ∈ s) :
    x ∈ setAdd s y := by
  by_cases hy : y ∈ s <;> simp [setAdd, hy, h]

theorem foldl_pred_preserve {σ β : Type} (P : σ → Prop) (f : σ → β → σ)
    (hf : ∀ acc b, P acc → P (f acc b)) :
    ∀ (l : List β) (acc : σ), P acc → P (l.foldl f acc) := by
  intro l
  induction l with
  | nil => intro acc h; simpa using h
  | cons b bs ih => intro acc h; simpa using ih (f acc b) (hf acc b h)

-- ===========================================================================
-- Claim C5: morning-report idempotence
-- ===========================================================================

/-- Claim C5: after `recordMorningReport` runs for a date, a subsequent
`shouldSendMorningReport` for the same date at the configured report hour
returns false, and the persisted insight and completed-topic lists are both
empty. -/
theorem claim_c5 (fs : BehaviorFS) (config : Option AutonomousConfigSimple)
    (d : Str) (h : Nat) (hh : h = (config.bind (·.morningReportHour)).getD 8) :
    shouldSendMorningReport (recordMorningReport fs d) config h d = false ∧
    (loadDreamState (recordMorningReport fs d)).insights = [] ∧
    (loadResearchState (recordMorningReport fs d)).completedTopics = [] := by
  refine ⟨?_, by simp [recordMorningReport, loadDreamState, saveDreamState,
      saveResearchState], by simp [recordMorningReport, loadDreamState, loadResearchState,
      saveDreamState, saveResearchState]⟩
  have hd : d ∈ (recordMorningReport fs d).reportDates := by
    simp [recordMorningReport, saveDreamState, saveResearchState]
    exact mem_setAdd_self _ _
  by_cases he : (config.bind (·.morningReportEnabled)) = some false
  · simp [shouldSendMorningReport, he]
  · simp [shouldSendMorningReport, he, hh, hd]

/-- Witness for C5 at a concrete workspace, date and hour. -/
theorem claim_c5_witness :
    (8 = (((none : Option AutonomousConfigSimple)).bind (·.morningReportHour)).getD 8) ∧
    (shouldSendMorningReport (recordMorningReport {} "2026-10-11".data) none 8 "2026-10-11".data = false ∧
     (loadDreamState (recordMorningReport {} "2026-10-11".data)).insights = [] ∧
     (loadResearchState (recordMorningReport {} "2026-10-11".data)).completedTopics = []) :=
  ⟨rfl, claim_c5 {} none "2026-10-11".data 8 rfl⟩

-- ===========================================================================
-- Claim C6: idle gating at 29 and 31 minutes
-- ===========================================================================

/-- Claim C6: with dream mode enabled, no prior dream and a 30-minute idle
threshold (`dreamIdleHours = 1/2`), `shouldDream` is false 29 minutes after
the recorded activity and true 31 minutes after it. -/
theorem claim_c6 (t : ℚ) (ht : 0 < t) :
    shouldDream ⟨some ⟨none, some t, [], []⟩, none, [], []⟩
      (some { dreamModeEnabled := some true, dreamIdleHours := some (1/2 : ℚ) })
      (t + 29 * 60000) = false ∧
    shouldDream ⟨some ⟨none, some t, [], []⟩, none, [], []⟩
      (some { dreamModeEnabled := some true, dreamIdleHours := some (1/2 : ℚ) })
      (t + 31 * 60000) = true := by
  constructor
  · simp [shouldDream, loadDreamState, truthyTime, ht.ne']
    norm_num
  · simp [shouldDream, loadDreamState, truthyTime, ht.ne']
    norm_num

/-- Witness for C6 at `t = 1`. -/
theorem claim_c6_witness :
    (0 < (1 : ℚ)) ∧
    (shouldDream ⟨some ⟨none, some 1, [], []⟩, none, [], []⟩
       (some { dreamModeEnabled := some true, dreamIdleHours := some (1/2 : ℚ) })
       (1 + 29 * 60000) = false ∧
     shouldDream ⟨some ⟨none, some 1, [], []⟩, none, [], []⟩
       (some { dreamModeEnabled := some true, dreamIdleHours := some (1/2 : ℚ) })
       (1 + 31 * 60000) = true) :=
  ⟨by norm_num, claim_c6 1 (by norm_num)⟩

-- ===========================================================================
-- Claim C9: recordActivity resets both idle gates
-- ===========================================================================

/-- Claim C9: `recordActivity` writes the single activity timestamp that both
`shouldDream` and `shouldResearch` consult; each gate stays false until its
own idle threshold has elapsed — `shouldDream` while the elapsed time is
below the dream threshold, and `shouldResearch` while it is below the
research threshold, with no condition on the other gate's threshold. -/
theorem claim_c9 (fs : BehaviorFS) (cfg : AutonomousConfigSimple)
    (hd hr now now' : ℚ)
    (hcd : cfg.dreamIdleHours = some hd) (hcr : cfg.researchIdleHours = some hr)
    (hnow : 0 < now) :
    (now' - now < hd * 60 * 60 * 1000 →
      shouldDream (recordActivity fs now) (some cfg) now' = false) ∧
    (now' - now < hr * 60 * 60 * 1000 →
      shouldResearch (recordActivity fs now) (some cfg) now' = false) := by
  constructor
  · intro h1
    by_cases he : cfg.dreamModeEnabled = some false
    · simp [shouldDream, he]
    · simp [shouldDream, he, recordActivity, loadDreamState, saveDreamState,
        truthyTime, hnow.ne', hcd, h1]
  · intro h2
    by_cases he : cfg.researchModeEnabled = some false
    · simp [shouldResearch, he]
    · simp [shouldResearch, he, recordActivity, loadDreamState, saveDreamState,
        truthyTime, hnow.ne', hcr, h2]

/-- Witness for C9 with a one-hour dream threshold and a six-hour research
threshold: the dream gate is false shortly after the activity, and the
research gate is false at an elapsed time beyond the dream threshold but
below the research threshold. -/
theorem claim_c9_witness :
    ((({ dreamIdleHours := some 1, researchIdleHours := some 6 } :
        AutonomousConfigSimple)).dreamIdleHours = some 1) ∧
    ((({ dreamIdleHours := some 1, researchIdleHours := some 6 } :
        AutonomousConfigSimple)).researchIdleHours = some 6) ∧
    (0 < (1 : ℚ)) ∧
    ((2 : ℚ) - 1 < 1 * 60 * 60 * 1000) ∧
    ((10000000 : ℚ) - 1 < 6 * 60 * 60 * 1000) ∧
    shouldDream (recordActivity {} 1)
      (some { dreamIdleHours := some 1, researchIdleHours := some 6 }) 2 = false ∧
    shouldResearch (recordActivity {} 1)
      (some { dreamIdleHours := some 1, researchIdleHours := some 6 }) 10000000 = false :=
  ⟨rfl, rfl, by norm_num, by norm_num, by norm_num,
   (claim_c9 {} { dreamIdleHours := some 1, researchIdleHours := some 6 } 1 6 1 2
     rfl rfl (by norm_num)).1 (by norm_num),
   (claim_c9 {} { dreamIdleHours := some 1, researchIdleHours := some 6 } 1 6 1 10000000
     rfl rfl (by norm_num)).2 (by norm_num)⟩

-- ===========================================================================
-- Claim C10: defaults dream on an empty workspace
-- ===========================================================================

/-- Claim C10: with no dream state file (both timestamps load as null) and a
configuration that does not explicitly disable dream mode, `shouldDream`
returns true at any time. -/
theorem claim_c10 (cfg : Option AutonomousConfigSimple)
    (h : cfg.bind (·.dreamModeEnabled) ≠ some false)
    (rs : Option ResearchState) (reports : List Str) (logs : FS) (now : ℚ) :
    shouldDream ⟨none, rs, reports, logs⟩ cfg now = true := by
  simp [shouldDream, loadDreamState, defaultDreamState, truthyTime, h]

/-- Witness for C10 with an absent configuration. -/
theorem claim_c10_witness :
    ((none : Option AutonomousConfigSimple).bind (·.dreamModeEnabled) ≠ some false) ∧
    shouldDream ⟨none, none, [], []⟩ none 123456 = true :=
  ⟨by simp, claim_c10 none (by simp) none [] [] 123456⟩

-- ===========================================================================
-- Claim C7: node identity is a pure function of the title
-- ===========================================================================

/-- Claim C7: `createMemoryNode` derives the node id purely from the title
(two calls with the same title yield the same id whatever else differs), and
re-creating "Max The Dog" overwrites the index entry instead of duplicating
it: after two creations the persisted index holds exactly one entry, keyed
`max_the_dog`, carrying the second call's keywords. -/
theorem claim_c7 :
    (∀ (fs1 fs2 : FS) (ws1 ws2 ip1 ip2 title : Str)
       (kws1 kws2 : List Str) (c1 c2 : Str) (t1 t2 : MemoryTier)
       (n1 n2 : Nat) (iso1 iso2 : Str),
       ((createMemoryNode fs1 ws1 ip1 title kws1 c1 t1 n1 iso1).2).id =
       ((createMemoryNode fs2 ws2 ip2 title kws2 c2 t2 n2 iso2).2).id) ∧
    (((createMemoryNode
        (createMemoryNode [] "ws".data "memory/index.md".data "Max The Dog".data
          ["Dog".data] "content one".data .contextual 0 "isoA".data).1
        "ws".data "memory/index.md".data "Max The Dog".data
        ["dog".data, "pet".data] "content two".data .contextual 1 "isoB".data).2).id =
      ((createMemoryNode [] "ws".data "memory/index.md".data "Max The Dog".data
          ["Dog".data] "content one".data .contextual 0 "isoA".data).2).id ∧
    (loadMemoryIndex
        (createMemoryNode
          (createMemoryNode [] "ws".data "memory/index.md".data "Max The Dog".data
            ["Dog".data] "content one".data .contextual 0 "isoA".data).1
          "ws".data "memory/index.md".data "Max The Dog".data
          ["dog".data, "pet".data] "content two".data .contextual 1 "isoB".data).1
        (pathJoin "ws".data "memory/index.md".data) 2).map
      (fun i => (i.nodes.map Prod.fst, i.nodes.map (fun p => p.2.keywords))) =
      some (["max_the_dog".data], [["dog".data, "pet".data]])) := by
  refine ⟨fun _ _ _ _ _ _ _ _ _ _ _ _ _ _ _ _ _ => rfl, by decide, by decide⟩

-- ===========================================================================
-- Claim C8: unconditional core-tier inclusion and the keyword scenario
-- ===========================================================================

theorem foldl_core_mem {l : List MemoryIndexEntry} {n : MemoryIndexEntry}
    (hn : n ∈ l) (ht : n.tier = .core) :
    ∀ s : List Str,
      n.id ∈ l.foldl (fun s n => if n.tier = .core then setAdd s n.id else s) s := by
  induction l with
  | nil => simp at hn
  | cons a rest ih =>
    intro s
    rcases List.mem_cons.mp hn with h1 | h1
    · subst h1
      simp only [List.foldl_cons, ht, if_pos rfl]
      exact foldl_pred_preserve (fun acc => n.id ∈ acc) _
        (fun acc b hb => by
          by_cases hbt : b.tier = .core
          · simpa [hbt] using mem_setAdd_of_mem _ hb
          · simpa [hbt] using hb)
        rest _ (mem_setAdd_self s n.id)
    · simp only [List.foldl_cons]
      exact ih h1 _

theorem addHits_mem_preserve {idx : MemoryIndex} {tiers : List MemoryTier}
    {mk : Str} {nodeIds : List Str} {x : Str} {acc : List Str × List Str}
    (h : x ∈ acc.1) : x ∈ (addHits idx tiers mk nodeIds acc).1 := by
  refine foldl_pred_preserve (fun p => x ∈ p.1) _ ?_ nodeIds acc h
  intro p b hp
  cases hg : recGet idx.nodes b with
  | none => simpa [hg] using hp
  | some node =>
    by_cases htn : node.tier ∈ tiers
    · simpa [hg, htn] using mem_setAdd_of_mem _ hp
    · simpa [hg, htn] using hp

/-- Claim C8: every core-tier node is included whenever `core` is among the
requested tiers, independent of keyword matches; on the concrete index with a
core `identity` node and a contextual `dog`/`pet` node, "tell me about my
dog" yields both nodes with matched keyword `dog`, and "what's the weather"
yields only the core node. -/
theorem claim_c8 :
    (∀ (idx : MemoryIndex) (kws : List Str) (tiers : List MemoryTier),
       (idx.nodes.map Prod.fst).Nodup →
       (∀ p ∈ idx.nodes, p.2.id = p.1) →
       MemoryTier.core ∈ tiers →
       ∀ p ∈ idx.nodes, p.2.tier = .core →
         p.2 ∈ (findMatchingNodes idx kws tiers).1) ∧
    (findMatchingNodes idxPets (extractKeywordsFromContext "tell me about my dog".data)
        [.core, .contextual] =
      ([⟨"identity".data, "Identity".data, ["identity".data], .core,
          "memory/nodes/identity.md".data, 0, 0⟩,
        ⟨"max".data, "Max".data, ["dog".data, "pet".data], .contextual,
          "memory/nodes/max.md".data, 0, 0⟩], ["dog".data])) ∧
    (findMatchingNodes idxPets (extractKeywordsFromContext "what\x27s the weather".data)
        [.core, .contextual] =
      ([⟨"identity".data, "Identity".data, ["identity".data], .core,
          "memory/nodes/identity.md".data, 0, 0⟩], [])) := by
  refine ⟨?_, by decide, by decide⟩
  intro idx kws tiers hnodup hids hcore p hp htier
  have hget : recGet idx.nodes p.2.id = some p.2 := by
    have hmem : (p.2.id, p.2) ∈ idx.nodes := by
      have hpe : p = (p.1, p.2) := rfl
      rw [hids p hp]
      exact hpe ▸ hp
    exact recGet_of_mem hnodup hmem
  simp only [findMatchingNodes]
  refine List.mem_filterMap.mpr ⟨p.2.id, ?_, hget⟩
  refine foldl_pred_preserve (fun a : List Str × List Str => p.2.id ∈ a.1) _ ?_ kws _ ?_
  · intro acc kw hacc
    have hacc1 : p.2.id ∈ (match recGet idx.keywordMap kw with
        | some nodeIds => addHits idx tiers kw nodeIds acc
        | none => acc).1 := by
      cases hg : recGet idx.keywordMap kw with
      | none => simpa [hg] using hacc
      | some ids => simpa [hg] using addHits_mem_preserve hacc
    refine foldl_pred_preserve (fun a : List Str × List Str => p.2.id ∈ a.1) _ ?_
      idx.keywordMap _ hacc1
    intro a q ha
    by_cases hq : (infixOf kw q.1 || infixOf q.1 kw) = true
    · simpa [hq] using addHits_mem_preserve ha
    · simpa [hq] using ha
  · show p.2.id ∈ (_, ([] : List Str)).1
    rw [if_pos hcore]
    exact foldl_core_mem (List.mem_map.mpr ⟨p, hp, rfl⟩) htier []

/-- Witness for C8's universal part at the concrete index with no keywords. -/
theorem claim_c8_witness :
    ((idxPets.nodes.map Prod.fst).Nodup ∧
     (∀ p ∈ idxPets.nodes, p.2.id = p.1) ∧
     MemoryTier.core ∈ [MemoryTier.core] ∧
     ("identity".data,
      (⟨"identity".data, "Identity".data, ["identity".data], .core,
        "memory/nodes/identity.md".data, 0, 0⟩ : MemoryIndexEntry)) ∈ idxPets.nodes ∧
     (⟨"identity".data, "Identity".data, ["identity".data], .core,
        "memory/nodes/identity.md".data, 0, 0⟩ : MemoryIndexEntry).tier = .core) ∧
    (⟨"identity".data, "Identity".data, ["identity".data], .core,
        "memory/nodes/identity.md".data, 0, 0⟩ : MemoryIndexEntry) ∈
      (findMatchingNodes idxPets [] [.core]).1 :=
  ⟨⟨by decide, by decide, by decide, by decide, by decide⟩,
   claim_c8.1 idxPets [] [.core] (by decide) (by decide) (by decide)
     ("identity".data,
      ⟨"identity".data, "Identity".data, ["identity".data], .core,
        "memory/nodes/identity.md".data, 0, 0⟩) (by decide) (by decide)⟩

-- ===========================================================================
-- Claim C2: the 9000/50/50 injection-budget scenario
-- ===========================================================================

/-- Claim C2 counterexample: with three matched nodes of 9000, 50 and 50
characters and the default 4000-token budget (16000 characters),
`injectMemories` loads all three nodes — 9100 characters never exceed the
budget — so the result does not contain exactly one node as the claim
predicts. -/
theorem claim_c2_counterexample :
    ((injectMemories fsC2 "ws".data "dog".data {} 5).nodes.map
        (fun n => n.content.length) = [9000, 50, 50]) ∧
    (injectMemories fsC2 "ws".data "dog".data {} 5).totalTokens = 2275 ∧
    (injectMemories fsC2 "ws".data "dog".data {} 5).nodes.length ≠ 1 := by
  have heval : injectMemories fsC2 "ws".data "dog".data {} 5 =
      ⟨true,
       [⟨"aaa".data, "Aaa".data, ["dog".data], .contextual, List.replicate 9000 'a', 5, 5, 0, 5⟩,
        ⟨"bbb".data, "Bbb".data, ["dog".data], .contextual, List.replicate 50 'b', 5, 5, 0, 5⟩,
        ⟨"ccc".data, "Ccc".data, ["dog".data], .contextual, List.replicate 50 'c', 5, 5, 0, 5⟩],
       2275, ["dog".data]⟩ := by
    have hidx : loadMemoryIndex fsC2 (pathJoin "ws".data "memory/index.md".data) 5 =
        some ⟨1,
          [("aaa".data, ⟨"aaa".data, "Aaa".data, ["dog".data], .contextual,
             "memory/nodes/a.md".data, 5, 5⟩),
           ("bbb".data, ⟨"bbb".data, "Bbb".data, ["dog".data], .contextual,
             "memory/nodes/b.md".data, 5, 5⟩),
           ("ccc".data, ⟨"ccc".data, "Ccc".data, ["dog".data], .contextual,
             "memory/nodes/c.md".data, 5, 5⟩)],
          [("dog".data, ["aaa".data, "bbb".data, "ccc".data])]⟩ := by rfl
    have hek : extractKeywordsFromContext "dog".data = ["dog".data] := by rfl
    have hdd : dedupKeep ["dog".data] = ["dog".data] := by rfl
    have hfind : findMatchingNodes
        ⟨1,
          [("aaa".data, ⟨"aaa".data, "Aaa".data, ["dog".data], .contextual,
             "memory/nodes/a.md".data, 5, 5⟩),
           ("bbb".data, ⟨"bbb".data, "Bbb".data, ["dog".data], .contextual,
             "memory/nodes/b.md".data, 5, 5⟩),
           ("ccc".data, ⟨"ccc".data, "Ccc".data, ["dog".data], .contextual,
             "memory/nodes/c.md".data, 5, 5⟩)],
          [("dog".data, ["aaa".data, "bbb".data, "ccc".data])]⟩
        ["dog".data] [.core, .contextual] =
        ([⟨"aaa".data, "Aaa".data, ["dog".data], .contextual, "memory/nodes/a.md".data, 5, 5⟩,
          ⟨"bbb".data, "Bbb".data, ["dog".data], .contextual, "memory/nodes/b.md".data, 5, 5⟩,
          ⟨"ccc".data, "Ccc".data, ["dog".data], .contextual, "memory/nodes/c.md".data, 5, 5⟩],
         ["dog".data]) := by rfl
    have hload1 : loadMemoryNode fsC2 "ws".data
        ⟨"aaa".data, "Aaa".data, ["dog".data], .contextual, "memory/nodes/a.md".data, 5, 5⟩ 5 =
        some ⟨"aaa".data, "Aaa".data, ["dog".data], .contextual,
          List.replicate 9000 'a', 5, 5, 0, 5⟩ := by rfl
    have hload2 : loadMemoryNode fsC2 "ws".data
        ⟨"bbb".data, "Bbb".data, ["dog".data], .contextual, "memory/nodes/b.md".data, 5, 5⟩ 5 =
        some ⟨"bbb".data, "Bbb".data, ["dog".data], .contextual,
          List.replicate 50 'b', 5, 5, 0, 5⟩ := by rfl
    have hload3 : loadMemoryNode fsC2 "ws".data
        ⟨"ccc".data, "Ccc".data, ["dog".data], .contextual, "memory/nodes/c.md".data, 5, 5⟩ 5 =
        some ⟨"ccc".data, "Ccc".data, ["dog".data], .contextual,
          List.replicate 50 'c', 5, 5, 0, 5⟩ := by rfl
    have hsort : jsSort entryLE
        [⟨"aaa".data, "Aaa".data, ["dog".data], .contextual, "memory/nodes/a.md".data, 5, 5⟩,
         ⟨"bbb".data, "Bbb".data, ["dog".data], .contextual, "memory/nodes/b.md".data, 5, 5⟩,
         ⟨"ccc".data, "Ccc".data, ["dog".data], .contextual, "memory/nodes/c.md".data, 5, 5⟩] =
        [⟨"aaa".data, "Aaa".data, ["dog".data], .contextual, "memory/nodes/a.md".data, 5, 5⟩,
         ⟨"bbb".data, "Bbb".data, ["dog".data], .contextual, "memory/nodes/b.md".data, 5, 5⟩,
         ⟨"ccc".data, "Ccc".data, ["dog".data], .contextual, "memory/nodes/c.md".data, 5, 5⟩] := by
      rfl
    have hpack : assembleNodes fsC2 "ws".data
        [⟨"aaa".data, "Aaa".data, ["dog".data], .contextual, "memory/nodes/a.md".data, 5, 5⟩,
         ⟨"bbb".data, "Bbb".data, ["dog".data], .contextual, "memory/nodes/b.md".data, 5, 5⟩,
         ⟨"ccc".data, "Ccc".data, ["dog".data], .contextual, "memory/nodes/c.md".data, 5, 5⟩]
        4000 5 =
        ([⟨"aaa".data, "Aaa".data, ["dog".data], .contextual, List.replicate 9000 'a', 5, 5, 0, 5⟩,
          ⟨"bbb".data, "Bbb".data, ["dog".data], .contextual, List.replicate 50 'b', 5, 5, 0, 5⟩,
          ⟨"ccc".data, "Ccc".data, ["dog".data], .contextual, List.replicate 50 'c', 5, 5, 0, 5⟩],
         9100) := by
      simp only [assembleNodes, charsPerToken, hsort]
      simp [-List.reduceReplicate, packEntries, hload1, hload2, hload3, List.length_replicate]
    simp only [injectMemories, jsOrStr, jsOrNat]
    simp [-List.reduceReplicate, hidx, hek, hdd, hfind, hpack, ceilDivTok, charsPerToken]
  rw [heval]
  refine ⟨by simp [-List.reduceReplicate, List.length_replicate], rfl,
    by simp [-List.reduceReplicate]⟩

/-- Claim C2 amended: for the budget policy the scenario was written to
exhibit, the first node must actually be oversized; with contents of 17000,
50 and 50 characters and the same 4000-token budget, `injectMemories`
includes the first (oversized) node and stops, so the result contains
exactly one node. -/
theorem claim_c2_amended :
    ((injectMemories fsC2A "ws".data "dog".data {} 5).nodes.map
        (fun n => n.content.length) = [17000]) ∧
    (injectMemories fsC2A "ws".data "dog".data {} 5).totalTokens = 4250 ∧
    (injectMemories fsC2A "ws".data "dog".data {} 5).nodes.length = 1 := by
  have heval : injectMemories fsC2A "ws".data "dog".data {} 5 =
      ⟨true,
       [⟨"aaa".data, "Aaa".data, ["dog".data], .contextual, List.replicate 17000 'a', 5, 5, 0, 5⟩],
       4250, ["dog".data]⟩ := by
    have hidx : loadMemoryIndex fsC2A (pathJoin "ws".data "memory/index.md".data) 5 =
        some ⟨1,
          [("aaa".data, ⟨"aaa".data, "Aaa".data, ["dog".data], .contextual,
             "memory/nodes/a.md".data, 5, 5⟩),
           ("bbb".data, ⟨"bbb".data, "Bbb".data, ["dog".data], .contextual,
             "memory/nodes/b.md".data, 5, 5⟩),
           ("ccc".data, ⟨"ccc".data, "Ccc".data, ["dog".data], .contextual,
             "memory/nodes/c.md".data, 5, 5⟩)],
          [("dog".data, ["aaa".data, "bbb".data, "ccc".data])]⟩ := by rfl
    have hek : extractKeywordsFromContext "dog".data = ["dog".data] := by rfl
    have hdd : dedupKeep ["dog".data] = ["dog".data] := by rfl
    have hfind : findMatchingNodes
        ⟨1,
          [("aaa".data, ⟨"aaa".data, "Aaa".data, ["dog".data], .contextual,
             "memory/nodes/a.md".data, 5, 5⟩),
           ("bbb".data, ⟨"bbb".data, "Bbb".data, ["dog".data], .contextual,
             "memory/nodes/b.md".data, 5, 5⟩),
           ("ccc".data, ⟨"ccc".data, "Ccc".data, ["dog".data], .contextual,
             "memory/nodes/c.md".data, 5, 5⟩)],
          [("dog".data, ["aaa".data, "bbb".data, "ccc".data])]⟩
        ["dog".data] [.core, .contextual] =
        ([⟨"aaa".data, "Aaa".data, ["dog".data], .contextual, "memory/nodes/a.md".data, 5, 5⟩,
          ⟨"bbb".data, "Bbb".data, ["dog".data], .contextual, "memory/nodes/b.md".data, 5, 5⟩,
          ⟨"ccc".data, "Ccc".data, ["dog".data], .contextual, "memory/nodes/c.md".data, 5, 5⟩],
         ["dog".data]) := by rfl
    have hload1 : loadMemoryNode fsC2A "ws".data
        ⟨"aaa".data, "Aaa".data, ["dog".data], .contextual, "memory/nodes/a.md".data, 5, 5⟩ 5 =
        some ⟨"aaa".data, "Aaa".data, ["dog".data], .contextual,
          List.replicate 17000 'a', 5, 5, 0, 5⟩ := by rfl
    have hload2 : loadMemoryNode fsC2A "ws".data
        ⟨"bbb".data, "Bbb".data, ["dog".data], .contextual, "memory/nodes/b.md".data, 5, 5⟩ 5 =
        some ⟨"bbb".data, "Bbb".data, ["dog".data], .contextual,
          List.replicate 50 'b', 5, 5, 0, 5⟩ := by rfl
    have hsort : jsSort entryLE
        [⟨"aaa".data, "Aaa".data, ["dog".data], .contextual, "memory/nodes/a.md".data, 5, 5⟩,
         ⟨"bbb".data, "Bbb".data, ["dog".data], .contextual, "memory/nodes/b.md".data, 5, 5⟩,
         ⟨"ccc".data, "Ccc".data, ["dog".data], .contextual, "memory/nodes/c.md".data, 5, 5⟩] =
        [⟨"aaa".data, "Aaa".data, ["dog".data], .contextual, "memory/nodes/a.md".data, 5, 5⟩,
         ⟨"bbb".data, "Bbb".data, ["dog".data], .contextual, "memory/nodes/b.md".data, 5, 5⟩,
         ⟨"ccc".data, "Ccc".data, ["dog".data], .contextual, "memory/nodes/c.md".data, 5, 5⟩] := by
      rfl
    have hpack : assembleNodes fsC2A "ws".data
        [⟨"aaa".data, "Aaa".data, ["dog".data], .contextual, "memory/nodes/a.md".data, 5, 5⟩,
         ⟨"bbb".data, "Bbb".data, ["dog".data], .contextual, "memory/nodes/b.md".data, 5, 5⟩,
         ⟨"ccc".data, "Ccc".data, ["dog".data], .contextual, "memory/nodes/c.md".data, 5, 5⟩]
        4000 5 =
        ([⟨"aaa".data, "Aaa".data, ["dog".data], .contextual,
           List.replicate 17000 'a', 5, 5, 0, 5⟩],
         17000) := by
      simp only [assembleNodes, charsPerToken, hsort]
      simp [-List.reduceReplicate, packEntries, hload1, hload2, List.length_replicate]
    simp only [injectMemories, jsOrStr, jsOrNat]
    simp [-List.reduceReplicate, hidx, hek, hdd, hfind, hpack, ceilDivTok, charsPerToken]
  rw [heval]
  refine ⟨by simp [-List.reduceReplicate, List.length_replicate], rfl,
    by simp [-List.reduceReplicate]⟩

-- ===========================================================================
-- jsSort: permutation and sortedness
-- ===========================================================================

theorem jsSortInsert_perm {α : Type} (le : α → α → Bool) (x : α) :
    ∀ l : List α, (jsSortInsert le x l).Perm (x :: l) := by
  intro l
  induction l with
  | nil => simp [jsSortInsert]
  | cons y ys ih =>
    by_cases h : le x y
    · simp [jsSortInsert, h]
    · simp only [jsSortInsert, if_neg h]
      exact (ih.cons y).trans (List.Perm.swap x y ys)

theorem jsSort_perm {α : Type} (le : α → α → Bool) : ∀ l : List α, (jsSort le l).Perm l := by
  intro l
  induction l with
  | nil => simp [jsSort]
  | cons x xs ih => exact (jsSortInsert_perm le x (jsSort le xs)).trans (ih.cons x)

theorem jsSortInsert_pairwise {α : Type} {le : α → α → Bool}
    (htrans : ∀ a b c, le a b = true → le b c = true → le a c = true)
    (htotal : ∀ a b, (le a b || le b a) = true) (x : α) :
    ∀ {l : List α}, l.Pairwise (fun a b => le a b = true) →
      (jsSortInsert le x l).Pairwise (fun a b => le a b = true) := by
  intro l
  induction l with
  | nil => intro _; simp [jsSortInsert]
  | cons y ys ih =>
    intro hp
    by_cases h : le x y
    · simp only [jsSortInsert, if_pos h]
      refine List.Pairwise.cons ?_ hp
      intro z hz
      rcases List.mem_cons.mp hz with hz | hz
      · subst hz; exact h
      · exact htrans x y z h (List.rel_of_pairwise_cons hp hz)
    · simp only [jsSortInsert, if_neg h]
      refine List.Pairwise.cons ?_ (ih (List.Pairwise.sublist (List.sublist_cons_self y ys) hp))
      intro z hz
      have hz' : z ∈ x :: ys := ((jsSortInsert_perm le x ys).mem_iff).mp hz
      rcases List.mem_cons.mp hz' with hz' | hz'
      · rw [hz']
        have h2 := htotal x y
        simp only [Bool.or_eq_true] at h2
        rcases h2 with h2 | h2
        · exact absurd h2 h
        · exact h2
      · exact List.rel_of_pairwise_cons hp hz'

theorem jsSort_pairwise {α : Type} {le : α → α → Bool}
    (htrans : ∀ a b c, le a b = true → le b c = true → le a c = true)
    (htotal : ∀ a b, (le a b || le b a) = true) :
    ∀ l : List α, (jsSort le l).Pairwise (fun a b => le a b = true) := by
  intro l
  induction l with
  | nil => simp [jsSort]
  | cons x xs ih => exact jsSortInsert_pairwise htrans htotal x ih

theorem entryLE_trans (a b c : MemoryIndexEntry)
    (hab : entryLE a b = true) (hbc : entryLE b c = true) : entryLE a c = true := by
  simp only [entryLE, Bool.or_eq_true, Bool.and_eq_true, decide_eq_true_eq] at *
  omega

theorem entryLE_total (a b : MemoryIndexEntry) : (entryLE a b || entryLE b a) = true := by
  simp only [entryLE, Bool.or_eq_true, Bool.and_eq_true, decide_eq_true_eq]
  omega

-- ===========================================================================
-- Claim C3: the packing loop implements the spec-side greedy policy
-- ===========================================================================

theorem packEntries_spec_cons (fs : FS) (ws : Str) (now mc : Nat) :
    ∀ (es : List MemoryIndexEntry) (nodes : List MemoryNode) (total : Nat),
      nodes ≠ [] →
      packEntries fs ws now mc es nodes total =
        (nodes ++ specGreedyRest mc total (es.filterMap (fun e => loadMemoryNode fs ws e now)),
         total + ((specGreedyRest mc total
             (es.filterMap (fun e => loadMemoryNode fs ws e now))).map
           (fun n => n.content.length)).sum) := by
  intro es
  induction es with
  | nil => intro nodes total _; simp [packEntries, specGreedyRest]
  | cons e rest ih =>
    intro nodes total h
    cases hl : loadMemoryNode fs ws e now with
    | none =>
      simpa [packEntries, hl, List.filterMap_cons] using ih nodes total h
    | some node =>
      by_cases hb : total + node.content.length > mc
      · have hlen : nodes.length > 0 := List.length_pos.mpr h
        simp [packEntries, hl, hb, hlen, List.filterMap_cons, specGreedyRest]
      · have hrec := ih (nodes ++ [node]) (total + node.content.length) (by simp)
        simp [packEntries, hl, hb, List.filterMap_cons, specGreedyRest, hrec]
        omega

theorem packEntries_spec (fs : FS) (ws : Str) (now mc : Nat) :
    ∀ es : List MemoryIndexEntry,
      packEntries fs ws now mc es [] 0 =
        (specGreedy mc (es.filterMap (fun e => loadMemoryNode fs ws e now)),
         ((specGreedy mc (es.filterMap (fun e => loadMemoryNode fs ws e now))).map
           (fun n => n.content.length)).sum) := by
  intro es
  induction es with
  | nil => simp [packEntries, specGreedy]
  | cons e rest ih =>
    cases hl : loadMemoryNode fs ws e now with
    | none => simpa [packEntries, hl, List.filterMap_cons] using ih
    | some node =>
      have hrec := packEntries_spec_cons fs ws now mc rest [node] node.content.length
        (by simp)
      simp [packEntries, hl, List.filterMap_cons, specGreedy, hrec]

/-- Claim C3: for every matched-entry list and positive token budget, the
assembly phase of `injectMemories` behaves as specified: a permutation of the
entries sorted by tier precedence then descending update time is walked, the
first loadable node is always accepted, each later node is rejected exactly
when adding it would exceed `maxTokens * 4` characters (accumulation stops at
the first rejection), and the accumulated character count — whose
ceiling-quarter is the returned `totalTokens` — is the character sum of the
accepted nodes. -/
theorem claim_c3 (fs : FS) (ws : Str) (entries : List MemoryIndexEntry)
    (maxTokens now : Nat) (hpos : 0 < maxTokens) :
    ∃ sorted : List MemoryIndexEntry,
      sorted.Perm entries ∧ sorted.Pairwise specEntryOrder ∧
      (assembleNodes fs ws entries maxTokens now).1 =
        specGreedy (maxTokens * charsPerToken)
          (sorted.filterMap (fun e => loadMemoryNode fs ws e now)) ∧
      (assembleNodes fs ws entries maxTokens now).2 =
        (((assembleNodes fs ws entries maxTokens now).1).map
          (fun n => n.content.length)).sum := by
  refine ⟨jsSort entryLE entries, jsSort_perm entryLE entries, ?_, ?_, ?_⟩
  · refine (jsSort_pairwise entryLE_trans entryLE_total entries).imp ?_
    intro a b hab
    simpa [entryLE, specEntryOrder, Bool.or_eq_true, Bool.and_eq_true,
      decide_eq_true_eq] using hab
  · rw [assembleNodes, packEntries_spec]
  · rw [assembleNodes, packEntries_spec]

/-- Witness for C3 on an empty entry list with budget 1. -/
theorem claim_c3_witness :
    0 < 1 ∧
    (∃ sorted : List MemoryIndexEntry,
      sorted.Perm [] ∧ sorted.Pairwise specEntryOrder ∧
      (assembleNodes [] [] [] 1 0).1 =
        specGreedy (1 * charsPerToken)
          (sorted.filterMap (fun e => loadMemoryNode [] [] e 0)) ∧
      (assembleNodes [] [] [] 1 0).2 =
        (((assembleNodes [] [] [] 1 0).1).map (fun n => n.content.length)).sum) :=
  ⟨by decide, claim_c3 [] [] [] 1 0 (by decide)⟩

-- ===========================================================================
-- Claim C4: what detectResearchTopics actually ranks by
-- ===========================================================================

theorem recGetD_bumpFreq (m : List (Str × Nat)) (k k' : Str) :
    ((recGet (bumpFreq m k') k).getD 0) =
      ((recGet m k).getD 0) + (if k' = k then 1 else 0) := by
  cases hg : recGet m k' with
  | none =>
    by_cases h : k' = k
    · subst h; simp [bumpFreq, hg, recGet_recSet]
    · simp [bumpFreq, hg, recGet_recSet, h]
  | some n =>
    by_cases h : k' = k
    · subst h; simp [bumpFreq, hg, recGet_recSet]
    · simp [bumpFreq, hg, recGet_recSet, h]

theorem recGetD_foldl_bumpFreq (k : Str) :
    ∀ (L : List Str) (m : List (Str × Nat)),
      ((recGet (L.foldl bumpFreq m) k).getD 0) = ((recGet m k).getD 0) + L.count k := by
  intro L
  induction L with
  | nil => intro m; simp
  | cons a L ih =>
    intro m
    rw [List.foldl_cons, ih, recGetD_bumpFreq, List.count_cons]
    by_cases h : a = k <;> simp [h] <;> omega

theorem recGetD_buildFreq (idx : MemoryIndex) (k : Str) :
    ((recGet (buildFreq idx) k).getD 0) = visitWeight idx k := by
  suffices h : ∀ (ps : List (Str × List Str)) (m : List (Str × Nat)),
      ((recGet (ps.foldl (fun freq p =>
          p.2.foldl (fun freq nodeId =>
            match recGet idx.nodes nodeId with
            | some node => node.keywords.foldl bumpFreq freq
            | none => freq) freq) m) k).getD 0) =
        ((recGet m k).getD 0) +
        (ps.map (fun p => (p.2.map (fun nodeId =>
          match recGet idx.nodes nodeId with
          | some node => node.keywords.count k
          | none => 0)).sum)).sum by
    simpa [buildFreq, visitWeight, recGet] using h idx.keywordMap []
  have inner : ∀ (ids : List Str) (m : List (Str × Nat)),
      ((recGet (ids.foldl (fun freq nodeId =>
          match recGet idx.nodes nodeId with
          | some node => node.keywords.foldl bumpFreq freq
          | none => freq) m) k).getD 0) =
        ((recGet m k).getD 0) + (ids.map (fun nodeId =>
          match recGet idx.nodes nodeId with
          | some node => node.keywords.count k
          | none => 0)).sum := by
    intro ids
    induction ids with
    | nil => intro m; simp
    | cons i ids ih2 =>
      intro m
      rw [List.foldl_cons, ih2, List.map_cons, List.sum_cons]
      cases hg : recGet idx.nodes i with
      | none => simp [hg]
      | some node =>
        simp only [hg]
        rw [recGetD_foldl_bumpFreq]
        omega
  intro ps
  induction ps with
  | nil => intro m; simp
  | cons p ps ih =>
    intro m
    rw [List.foldl_cons, ih, List.map_cons, List.sum_cons, inner]
    omega

theorem keys_recSet {α : Type} (m : List (Str × α)) (k : Str) (v : α) :
    (recSet m k v).map Prod.fst =
      if k ∈ m.map Prod.fst then m.map Prod.fst else m.map Prod.fst ++ [k] := by
  induction m with
  | nil => simp [recSet]
  | cons a rest ih =>
    obtain ⟨ka, va⟩ := a
    by_cases h : ka = k
    · have h1 : recSet ((ka, va) :: rest) k v = (ka, v) :: rest := by
        simp [recSet, h]
      rw [h1, if_pos (show k ∈ List.map Prod.fst ((ka, va) :: rest) by
        rw [List.map_cons]
        exact List.mem_cons.mpr (Or.inl h.symm))]
      simp
    · have h2 : recSet ((ka, va) :: rest) k v = (ka, va) :: recSet rest k v := by
        simp [recSet, h]
      rw [h2]
      by_cases hmem : k ∈ rest.map Prod.fst
      · rw [if_pos (by simp [hmem])]
        simp [ih, hmem]
      · rw [if_neg ?hc]
        case hc =>
          simp only [List.map_cons, List.mem_cons, not_or]
          exact ⟨fun hh => h hh.symm, hmem⟩
        simp [ih, hmem]

theorem nodupKeys_recSet {α : Type} {m : List (Str × α)} (k : Str) (v : α)
    (h : (m.map Prod.fst).Nodup) : ((recSet m k v).map Prod.fst).Nodup := by
  rw [keys_recSet]
  by_cases hmem : k ∈ m.map Prod.fst
  · simpa [hmem] using h
  · simp only [hmem, if_false]
    rw [List.nodup_append]
    exact ⟨h, List.nodup_singleton k, by
      intro a ha hb
      simp only [List.mem_singleton] at hb
      subst hb
      exact hmem ha⟩

theorem nodupKeys_bumpFreq {m : List (Str × Nat)} (k : Str)
    (h : (m.map Prod.fst).Nodup) : ((bumpFreq m k).map Prod.fst).Nodup := by
  cases hg : recGet m k with
  | none => simpa [bumpFreq, hg] using nodupKeys_recSet k 1 h
  | some n => simpa [bumpFreq, hg] using nodupKeys_recSet k (n + 1) h

theorem nodupKeys_buildFreq (idx : MemoryIndex) :
    ((buildFreq idx).map Prod.fst).Nodup := by
  refine foldl_pred_preserve (fun m : List (Str × Nat) => (m.map Prod.fst).Nodup)
    _ ?_ idx.keywordMap [] (by simp)
  intro m p hm
  refine foldl_pred_preserve (fun m : List (Str × Nat) => (m.map Prod.fst).Nodup)
    _ ?_ p.2 m hm
  intro m' i hm'
  cases hg : recGet idx.nodes i with
  | none => simpa [hg] using hm'
  | some node =>
    simp only [hg]
    exact foldl_pred_preserve (fun m : List (Str × Nat) => (m.map Prod.fst).Nodup)
      _ (fun acc kw hacc => nodupKeys_bumpFreq kw hacc) node.keywords m' hm'

theorem buildFreq_counts (idx : MemoryIndex) :
    ∀ p ∈ buildFreq idx, p.2 = visitWeight idx p.1 := by
  intro p hp
  have hget : recGet (buildFreq idx) p.1 = some p.2 := by
    have hpe : p = (p.1, p.2) := rfl
    exact recGet_of_mem (nodupKeys_buildFreq idx) (hpe ▸ hp)
  have := recGetD_buildFreq idx p.1
  rw [hget] at this
  simpa using this

theorem freqLE_trans (a b c : Str × Nat)
    (hab : freqLE a b = true) (hbc : freqLE b c = true) : freqLE a c = true := by
  simp only [freqLE, decide_eq_true_eq] at *
  omega

theorem freqLE_total (a b : Str × Nat) : (freqLE a b || freqLE b a) = true := by
  simp only [freqLE, Bool.or_eq_true, decide_eq_true_eq]
  omega

theorem foldl_append_extend {β : Type} (f : List Str → β → List Str)
    (hf : ∀ ts b, ∃ ex, f ts b = ts ++ ex) :
    ∀ (l : List β) (ts : List Str), ∃ ex, l.foldl f ts = ts ++ ex := by
  intro l
  induction l with
  | nil => intro ts; exact ⟨[], by simp⟩
  | cons b bs ih =>
    intro ts
    obtain ⟨e1, he1⟩ := hf ts b
    obtain ⟨e2, he2⟩ := ih (f ts b)
    exact ⟨e1 ++ e2, by rw [List.foldl_cons, he2, he1, List.append_assoc]⟩

theorem scrapeLog_extend (ts : List Str) (content : Str) :
    ∃ ex, scrapeLog ts content = ts ++ ex := by
  refine foldl_append_extend _ ?_ (scanInterests content) ts
  intro ts m
  by_cases h : stripCue m ≠ [] ∧ ¬ jsToLower (stripCue m) ∈ ts
  · exact ⟨[jsToLower (stripCue m)], by simp [h]⟩
  · exact ⟨[], by simp [scrapeLog, h]⟩

/-- Claim C4 amended: `detectResearchTopics` lists at most ten ranked
keywords first (then the scraped phrases), but the ranking weight is not the
number of referencing nodes: every frequency-map count equals `visitWeight`
— the number of (inverted-map entry, node) visits in which the keyword
occurs in the visited node's keyword list, i.e. for a consistent index the
sum over nodes carrying the keyword of each node's keyword count — and the
leading keywords are sorted by descending `visitWeight`. -/
theorem claim_c4_amended (fs : FS) (ws todayStr yesterdayStr : Str) (idx : MemoryIndex) :
    (∃ scraped : List Str,
       detectResearchTopics fs ws todayStr yesterdayStr (some idx) =
         rankedTopics idx ++ scraped) ∧
    (rankedTopics idx).length ≤ 10 ∧
    (∀ p ∈ buildFreq idx, p.2 = visitWeight idx p.1) ∧
    (rankedTopics idx).Pairwise
      (fun k1 k2 => visitWeight idx k2 ≤ visitWeight idx k1) := by
  refine ⟨?_, ?_, buildFreq_counts idx, ?_⟩
  · simp only [detectResearchTopics]
    refine foldl_append_extend _ ?_ [todayStr, yesterdayStr] (rankedTopics idx)
    intro ts d
    cases hg : recGet fs (pathJoin ws ("memory/".data ++ d ++ ".md".data)) with
    | none => exact ⟨[], by simp [hg]⟩
    | some content => simpa [hg] using scrapeLog_extend ts content
  · simp only [rankedTopics, List.length_map, List.length_take]
    exact min_le_left _ _
  · have hs := jsSort_pairwise freqLE_trans freqLE_total (buildFreq idx)
    have hst : ((jsSort freqLE (buildFreq idx)).take 10).Pairwise
        (fun a b => freqLE a b = true) :=
      List.Pairwise.sublist (List.take_sublist 10 _) hs
    rw [rankedTopics, List.pairwise_map]
    refine hst.imp_of_mem ?_
    intro a b ha hb hab
    have hma : a ∈ buildFreq idx :=
      ((jsSort_perm freqLE (buildFreq idx)).mem_iff).mp (List.take_subset 10 _ ha)
    have hmb : b ∈ buildFreq idx :=
      ((jsSort_perm freqLE (buildFreq idx)).mem_iff).mp (List.take_subset 10 _ hb)
    have hwa := buildFreq_counts idx a hma
    have hwb := buildFreq_counts idx b hmb
    simp only [freqLE, decide_eq_true_eq] at hab
    rw [← hwa, ← hwb]
    exact hab

/-- Witness for C4's amended statement at the counterexample index with no
log files. -/
theorem claim_c4_amended_witness :
    (∃ scraped : List Str,
       detectResearchTopics [] "ws".data "2026-10-11".data "2026-10-10".data (some idxRank) =
         rankedTopics idxRank ++ scraped) ∧
    (rankedTopics idxRank).length ≤ 10 ∧
    (∀ p ∈ buildFreq idxRank, p.2 = visitWeight idxRank p.1) ∧
    (rankedTopics idxRank).Pairwise
      (fun k1 k2 => visitWeight idxRank k2 ≤ visitWeight idxRank k1) :=
  claim_c4_amended [] "ws".data "2026-10-11".data "2026-10-10".data idxRank

/-- Claim C4 counterexample: on `idxRank` the emitted ranking is
`[a, c, d, e, f, b]` although keyword `b` is referenced by two nodes and
keyword `a` by one — the output is not ordered by descending node-reference
count, refuting "ranks ... by the number of nodes referencing each
keyword". -/
theorem claim_c4_counterexample :
    detectResearchTopics [] "ws".data "2026-10-11".data "2026-10-10".data (some idxRank) =
      ["a".data, "c".data, "d".data, "e".data, "f".data, "b".data] ∧
    nodeRefCount idxRank "b".data = 2 ∧ nodeRefCount idxRank "a".data = 1 ∧
    ¬ (detectResearchTopics [] "ws".data "2026-10-11".data "2026-10-10".data
        (some idxRank)).Pairwise
        (fun k1 k2 => nodeRefCount idxRank k2 ≤ nodeRefCount idxRank k1) := by
  exact ⟨by decide, by decide, by decide, by decide⟩

-- ===========================================================================
-- Claim C1 helper lemmas: strings
-- ===========================================================================

theorem takeWhile_prepend {p : Char → Bool} {l : Str} (c0 : Char) (r : Str)
    (hl : ∀ c ∈ l, p c = true) (hc : p c0 = false) :
    (l ++ c0 :: r).takeWhile p = l := by
  induction l with
  | nil => simp [List.takeWhile_cons, hc]
  | cons a l ih =>
    have ha := hl a (by simp)
    simp [List.takeWhile_cons, ha, ih (fun c hcm => hl c (by simp [hcm]))]

theorem dropWhile_prepend {p : Char → Bool} {l : Str} (c0 : Char) (r : Str)
    (hl : ∀ c ∈ l, p c = true) (hc : p c0 = false) :
    (l ++ c0 :: r).dropWhile p = c0 :: r := by
  induction l with
  | nil => simp [List.dropWhile_cons, hc]
  | cons a l ih =>
    have ha := hl a (by simp)
    simp [List.dropWhile_cons, ha, ih (fun c hcm => hl c (by simp [hcm]))]

theorem dropWhile_eq_self_of_head {s : Str} (h : headNotSpace s = true) :
    s.dropWhile isJsSpace = s := by
  cases s with
  | nil => rfl
  | cons c t =>
    simp only [headNotSpace, Bool.not_eq_true'] at h
    simp [List.dropWhile_cons, h]

theorem trimStable_parts {s : Str} (h : trimStable s = true) :
    headNotSpace s = true ∧ headNotSpace s.reverse = true := by
  rw [trimStable, Bool.and_eq_true] at h
  exact h

theorem jsTrim_eq_self {s : Str} (h : trimStable s = true) : jsTrim s = s := by
  obtain ⟨h1, h2⟩ := trimStable_parts h
  rw [jsTrim, dropWhile_eq_self_of_head h1, dropWhile_eq_self_of_head h2,
    List.reverse_reverse]

theorem headNotSpace_ne_nil {s : Str} (h : headNotSpace s = true) : s ≠ [] := by
  cases s with
  | nil => simp [headNotSpace] at h
  | cons c t => simp

theorem headNotSpace_append {a : Str} (b : Str) (h : headNotSpace a = true) :
    headNotSpace (a ++ b) = true := by
  cases a with
  | nil => simp [headNotSpace] at h
  | cons c t => simpa [headNotSpace] using h

theorem joinWith_cons₂ (sep x y : Str) (ys : List Str) :
    joinWith sep (x :: y :: ys) = x ++ sep ++ joinWith sep (y :: ys) := rfl

theorem mem_joinWith {sep : Str} {c : Char} :
    ∀ {ls : List Str}, c ∈ joinWith sep ls → c ∈ sep ∨ ∃ l ∈ ls, c ∈ l := by
  intro ls
  induction ls with
  | nil => intro h; simp [joinWith] at h
  | cons x xs ih =>
    cases xs with
    | nil =>
      intro h
      exact Or.inr ⟨x, by simp, h⟩
    | cons y ys =>
      intro h
      rw [joinWith_cons₂] at h
      rcases List.mem_append.mp h with h | h
      · rcases List.mem_append.mp h with h | h
        · exact Or.inr ⟨x, by simp, h⟩
        · exact Or.inl h
      · rcases ih h with h | ⟨l, hl, hcl⟩
        · exact Or.inl h
        · exact Or.inr ⟨l, by simp [hl], hcl⟩

theorem keywordOK_parts {k : Str} (h : keywordOK k = true) :
    trimStable k = true ∧ ∀ c ∈ k, charOK c = true ∧ ¬ c = ',' ∧ asciiLower c = c := by
  rw [keywordOK, Bool.and_eq_true, List.all_eq_true] at h
  refine ⟨h.1, fun c hc => ?_⟩
  have h2 := h.2 c hc
  simp only [Bool.and_eq_true, Bool.not_eq_true', decide_eq_true_eq,
    decide_eq_false_iff_not] at h2
  exact ⟨h2.1.1, h2.1.2, h2.2⟩

theorem titleOK_parts {t : Str} (h : titleOK t = true) :
    trimStable t = true ∧ ∀ c ∈ t, charOK c = true ∧ ¬ c = ']' := by
  rw [titleOK, Bool.and_eq_true, List.all_eq_true] at h
  refine ⟨h.1, fun c hc => ?_⟩
  have h2 := h.2 c hc
  simp only [Bool.and_eq_true, Bool.not_eq_true', decide_eq_false_iff_not] at h2
  exact h2

theorem pathOK_parts {p : Str} (h : pathOK p = true) :
    trimStable p = true ∧ ∀ c ∈ p, charOK c = true ∧ ¬ c = ')' := by
  rw [pathOK, Bool.and_eq_true, List.all_eq_true] at h
  refine ⟨h.1, fun c hc => ?_⟩
  have h2 := h.2 c hc
  simp only [Bool.and_eq_true, Bool.not_eq_true', decide_eq_false_iff_not] at h2
  exact h2

theorem joinWith_head {kws : List Str} (hne : kws ≠ [])
    (hall : ∀ k ∈ kws, keywordOK k = true) :
    headNotSpace (joinWith ", ".data kws) = true := by
  cases kws with
  | nil => exact absurd rfl hne
  | cons k ks =>
    have hk : headNotSpace k = true :=
      (trimStable_parts (keywordOK_parts (hall k (by simp))).1).1
    cases ks with
    | nil => exact hk
    | cons y ys =>
      rw [joinWith_cons₂]
      exact headNotSpace_append _ (headNotSpace_append _ hk)

theorem joinWith_rev_head :
    ∀ {kws : List Str}, kws ≠ [] → (∀ k ∈ kws, keywordOK k = true) →
      headNotSpace (joinWith ", ".data kws).reverse = true := by
  intro kws
  induction kws with
  | nil => intro h; exact absurd rfl h
  | cons k ks ih =>
    intro _ hall
    cases ks with
    | nil => exact (trimStable_parts (keywordOK_parts (hall k (by simp))).1).2
    | cons y ys =>
      rw [joinWith_cons₂, List.reverse_append]
      exact headNotSpace_append _ (ih (by simp) (fun k2 hk2 => hall k2 (by simp [hk2])))

theorem splitOnChar_not_mem {sep : Char} :
    ∀ {s : Str}, sep ∉ s → splitOnChar sep s = [s] := by
  intro s
  induction s with
  | nil => intro _; rfl
  | cons c t ih =>
    intro h
    simp only [List.mem_cons, not_or] at h
    have hne : ¬ c = sep := fun hh => h.1 hh.symm
    rw [splitOnChar, if_neg hne, ih h.2]

theorem splitOnChar_ne_nil (sep : Char) : ∀ s : Str, splitOnChar sep s ≠ [] := by
  intro s
  induction s with
  | nil => simp [splitOnChar]
  | cons c t ih =>
    by_cases h : c = sep
    · simp [splitOnChar, h]
    · rw [splitOnChar, if_neg h]
      cases hsp : splitOnChar sep t with
      | nil => simp
      | cons p ps => simp

theorem splitOnChar_append {sep : Char} :
    ∀ {l : Str} (r : Str), sep ∉ l →
      splitOnChar sep (l ++ sep :: r) = l :: splitOnChar sep r := by
  intro l
  induction l with
  | nil => intro r _; simp [splitOnChar]
  | cons c t ih =>
    intro r h
    simp only [List.mem_cons, not_or] at h
    have hne : ¬ c = sep := fun hh => h.1 hh.symm
    rw [List.cons_append, splitOnChar, if_neg hne, ih r h.2]

theorem jsToLower_eq_self {s : Str} (h : ∀ c ∈ s, asciiLower c = c) :
    jsToLower s = s := by
  rw [jsToLower]
  induction s with
  | nil => rfl
  | cons c t ih =>
    rw [List.map_cons, h c (by simp), ih (fun c2 hc2 => h c2 (by simp [hc2]))]

theorem jsTrim_cons_space (p : Str) : jsTrim (' ' :: p) = jsTrim p := by
  rw [jsTrim, jsTrim]
  have : (' ' :: p).dropWhile isJsSpace = p.dropWhile isJsSpace := rfl
  rw [this]

theorem splitComma_join_map :
    ∀ {kws : List Str}, kws ≠ [] → (∀ k ∈ kws, keywordOK k = true) →
      (splitComma (joinWith ", ".data kws)).map (fun k => jsToLower (jsTrim k)) = kws := by
  intro kws
  induction kws with
  | nil => intro h _; exact absurd rfl h
  | cons k ks ih =>
    intro _ hall
    have hk := keywordOK_parts (hall k (by simp))
    have hfix : jsToLower (jsTrim k) = k := by
      rw [jsTrim_eq_self hk.1, jsToLower_eq_self (fun c hc => (hk.2 c hc).2.2)]
    have hnc : ',' ∉ k := fun hc => ((hk.2 ',' hc).2.1 rfl)
    cases ks with
    | nil =>
      rw [show joinWith ", ".data [k] = k from rfl, splitComma, splitOnChar_not_mem hnc]
      simp [hfix]
    | cons y ys =>
      have hjoin : joinWith ", ".data (k :: y :: ys) =
          k ++ ',' :: ' ' :: joinWith ", ".data (y :: ys) := by
        rw [joinWith_cons₂, show ", ".data = [',', ' '] from rfl]
        simp [List.append_assoc]
      rw [splitComma, hjoin, splitOnChar_append _ hnc]
      obtain ⟨p, ps, hsp⟩ :=
        List.exists_cons_of_ne_nil (splitOnChar_ne_nil ',' (joinWith ", ".data (y :: ys)))
      have hstep : splitOnChar ',' (' ' :: joinWith ", ".data (y :: ys)) =
          (' ' :: p) :: ps := by
        rw [splitOnChar, if_neg (by decide : ¬(' ' = ',')), hsp]
      rw [hstep, List.map_cons, hfix]
      have hih := ih (by simp) (fun k2 hk2 => hall k2 (by simp [hk2]))
      rw [splitComma, hsp, List.map_cons] at hih
      rw [List.map_cons]
      rw [jsTrim_cons_space]
      exact congrArg (k :: ·) hih

-- ===========================================================================
-- Claim C1 helper lemmas: the entry line parses back
-- ===========================================================================

theorem infixOf_iff {p : Str} : ∀ {s : Str}, infixOf p s = true ↔ p <:+: s := by
  intro s
  induction s with
  | nil =>
    rw [infixOf, List.isEmpty_iff]
    constructor
    · intro h
      rw [h]
    · intro h
      exact List.sublist_nil.mp h.sublist
  | cons c t ih =>
    rw [infixOf, Bool.or_eq_true, List.isPrefixOf_iff_prefix, ih, List.infix_cons_iff]

theorem charOK_parts {c : Char} (h : charOK c = true) :
    c.toNat < 128 ∧ ¬ c = '#' ∧ ¬ c = '\n' ∧ ¬ c = '\r' := by
  rw [charOK] at h
  simp only [Bool.and_eq_true, Bool.not_eq_true', decide_eq_true_eq,
    decide_eq_false_iff_not] at h
  exact ⟨h.1.1.1, h.1.1.2, h.1.2, h.2⟩

theorem isLineDotChar_of_charOK {c : Char} (h : charOK c = true) :
    isLineDotChar c = true := by
  obtain ⟨h128, _, hn, hr⟩ := charOK_parts h
  rw [isLineDotChar, Bool.not_eq_true']
  simp only [Bool.or_eq_false_iff, decide_eq_false_iff_not]
  refine ⟨⟨⟨hn, hr⟩, ?_⟩, ?_⟩
  · intro hq
    rw [hq] at h128
    exact absurd h128 (by decide)
  · intro hq
    rw [hq] at h128
    exact absurd h128 (by decide)

theorem infixOf_hash_false {pat s : Str} (hpat : '#' ∈ pat) (hs : '#' ∉ s) :
    infixOf pat (jsToLower s) = false := by
  by_contra h
  rw [Bool.not_eq_false] at h
  have hsub := (infixOf_iff.mp h).subset hpat
  rcases List.mem_map.mp hsub with ⟨c, hc, hlc⟩
  exact hs (asciiLower_hash hlc ▸ hc)

theorem entryOK_parts {e : MemoryIndexEntry} (h : entryOK e = true) :
    titleOK e.title = true ∧ pathOK e.filePath = true ∧ e.keywords ≠ [] ∧
      ∀ k ∈ e.keywords, keywordOK k = true := by
  rw [entryOK, Bool.and_eq_true, Bool.and_eq_true, Bool.and_eq_true,
    List.all_eq_true] at h
  refine ⟨h.1.1.1, h.1.1.2, ?_, h.2⟩
  have := h.1.2
  simp only [Bool.not_eq_true'] at this
  exact fun hh => by simp [hh] at this

theorem entryLine_chars {e : MemoryIndexEntry} (h : entryOK e = true) :
    ∀ c ∈ entryLine e, c ∈ "- []()keywords:,".data ∨ charOK c = true := by
  obtain ⟨hT, hP, hKne, hKall⟩ := entryOK_parts h
  intro c hmem
  rw [entryLine] at hmem
  rcases List.mem_append.mp hmem with hmem | hmem
  · rcases List.mem_append.mp hmem with hmem | hmem
    · rcases List.mem_append.mp hmem with hmem | hmem
      · rcases List.mem_append.mp hmem with hmem | hmem
        · rcases List.mem_append.mp hmem with hmem | hmem
          · exact Or.inl ((by decide : "- [".data ⊆ "- []()keywords:,".data) hmem)
          · exact Or.inr ((titleOK_parts hT).2 c hmem).1
        · exact Or.inl ((by decide : "](".data ⊆ "- []()keywords:,".data) hmem)
      · exact Or.inr ((pathOK_parts hP).2 c hmem).1
    · exact Or.inl
        ((by decide : ") - keywords: ".data ⊆ "- []()keywords:,".data) hmem)
  · rcases mem_joinWith hmem with hm | ⟨k, hk, hck⟩
    · exact Or.inl ((by decide : ", ".data ⊆ "- []()keywords:,".data) hm)
    · exact Or.inr ((keywordOK_parts (hKall k hk)).2 c hck).1

theorem hash_not_mem_entryLine {e : MemoryIndexEntry} (h : entryOK e = true) :
    '#' ∉ entryLine e := by
  intro hmem
  rcases entryLine_chars h '#' hmem with hm | hm
  · exact absurd hm (by decide)
  · exact (charOK_parts hm).2.1 rfl

theorem newline_not_mem_entryLine {e : MemoryIndexEntry} (h : entryOK e = true) :
    ('\n') ∉ entryLine e := by
  intro hmem
  rcases entryLine_chars h ('\n') hmem with hm | hm
  · exact absurd hm (by decide)
  · exact (charOK_parts hm).2.2.1 rfl

theorem jsTrim_entryLine {e : MemoryIndexEntry} (h : entryOK e = true) :
    jsTrim (entryLine e) = entryLine e := by
  obtain ⟨hT, hP, hKne, hKall⟩ := entryOK_parts h
  apply jsTrim_eq_self
  rw [trimStable, Bool.and_eq_true]
  constructor
  · rw [entryLine]
    exact headNotSpace_append _ (headNotSpace_append _ (headNotSpace_append _
      (headNotSpace_append _ (headNotSpace_append _ (by decide)))))
  · rw [entryLine, List.reverse_append]
    exact headNotSpace_append _ (joinWith_rev_head hKne hKall)

theorem parseNodeLine_shape (title fp J : Str)
    (hTc : ∀ c ∈ title, ¬ c = ']') (hTne : title ≠ [])
    (hPc : ∀ c ∈ fp, ¬ c = ')') (hPne : fp ≠ [])
    (hJh : headNotSpace J = true) (hJr : headNotSpace J.reverse = true)
    (hJdot : J.all isLineDotChar = true) :
    parseNodeLine ('-' :: ' ' :: '[' :: (title ++ ']' :: '(' ::
        (fp ++ ')' :: ' ' :: '-' :: ' ' :: 'k' :: 'e' :: 'y' :: 'w' :: 'o' :: 'r' ::
         'd' :: 's' :: ':' :: ' ' :: J))) =
      some (jsTrim title, jsTrim fp,
        (splitComma (jsTrim J)).map (fun k => jsToLower (jsTrim k))) := by
  have hTw : ∀ c ∈ title, (fun c => !(c = ']' : Bool)) c = true := by
    intro c hc
    simp [hTc c hc]
  have hPw : ∀ c ∈ fp, (fun c => !(c = ')' : Bool)) c = true := by
    intro c hc
    simp [hPc c hc]
  have hJne : J ≠ [] := headNotSpace_ne_nil hJh
  have ht1 : (title ++ ']' :: '(' ::
      (fp ++ ')' :: ' ' :: '-' :: ' ' :: 'k' :: 'e' :: 'y' :: 'w' :: 'o' :: 'r' ::
       'd' :: 's' :: ':' :: ' ' :: J)).takeWhile (fun c => !(c = ']' : Bool)) = title :=
    takeWhile_prepend _ _ hTw (by decide)
  have hd1 : (title ++ ']' :: '(' ::
      (fp ++ ')' :: ' ' :: '-' :: ' ' :: 'k' :: 'e' :: 'y' :: 'w' :: 'o' :: 'r' ::
       'd' :: 's' :: ':' :: ' ' :: J)).dropWhile (fun c => !(c = ']' : Bool)) =
      ']' :: '(' :: (fp ++ ')' :: ' ' :: '-' :: ' ' :: 'k' :: 'e' :: 'y' :: 'w' :: 'o' ::
       'r' :: 'd' :: 's' :: ':' :: ' ' :: J) :=
    dropWhile_prepend _ _ hTw (by decide)
  have ht2 : (fp ++ ')' :: ' ' :: '-' :: ' ' :: 'k' :: 'e' :: 'y' :: 'w' :: 'o' :: 'r' ::
       'd' :: 's' :: ':' :: ' ' :: J).takeWhile (fun c => !(c = ')' : Bool)) = fp :=
    takeWhile_prepend _ _ hPw (by decide)
  have hd2 : (fp ++ ')' :: ' ' :: '-' :: ' ' :: 'k' :: 'e' :: 'y' :: 'w' :: 'o' :: 'r' ::
       'd' :: 's' :: ':' :: ' ' :: J).dropWhile (fun c => !(c = ')' : Bool)) =
      ')' :: ' ' :: '-' :: ' ' :: 'k' :: 'e' :: 'y' :: 'w' :: 'o' :: 'r' ::
       'd' :: 's' :: ':' :: ' ' :: J :=
    dropWhile_prepend _ _ hPw (by decide)
  have he1 : title.isEmpty = false := by simpa using hTne
  have he2 : fp.isEmpty = false := by simpa using hPne
  have he3 : J.isEmpty = false := by simpa using hJne
  simp only [parseNodeLine,
    show ((' ' :: '[' :: (title ++ ']' :: '(' ::
      (fp ++ ')' :: ' ' :: '-' :: ' ' :: 'k' :: 'e' :: 'y' :: 'w' :: 'o' :: 'r' ::
       'd' :: 's' :: ':' :: ' ' :: J))).dropWhile isJsSpace) =
      '[' :: (title ++ ']' :: '(' ::
      (fp ++ ')' :: ' ' :: '-' :: ' ' :: 'k' :: 'e' :: 'y' :: 'w' :: 'o' :: 'r' ::
       'd' :: 's' :: ':' :: ' ' :: J)) from rfl,
    ht1, hd1, ht2, hd2, he1, he2,
    show ((' ' :: '-' :: ' ' :: 'k' :: 'e' :: 'y' :: 'w' :: 'o' :: 'r' ::
      'd' :: 's' :: ':' :: ' ' :: J).dropWhile isJsSpace) =
      '-' :: ' ' :: 'k' :: 'e' :: 'y' :: 'w' :: 'o' :: 'r' ::
      'd' :: 's' :: ':' :: ' ' :: J from rfl,
    show ((' ' :: 'k' :: 'e' :: 'y' :: 'w' :: 'o' :: 'r' ::
      'd' :: 's' :: ':' :: ' ' :: J).dropWhile isJsSpace) =
      'k' :: 'e' :: 'y' :: 'w' :: 'o' :: 'r' :: 'd' :: 's' :: ':' :: ' ' :: J from rfl,
    show dropCI "keyword".data ('k' :: 'e' :: 'y' :: 'w' :: 'o' :: 'r' ::
      'd' :: 's' :: ':' :: ' ' :: J) = some ('s' :: ':' :: ' ' :: J) from rfl,
    show matchKeywordColon ('s' :: ':' :: ' ' :: J) = some (' ' :: J) from rfl,
    show ((' ' :: J).dropWhile isJsSpace) = J.dropWhile isJsSpace from rfl,
    dropWhile_eq_self_of_head hJh, he3, hJdot,
    Bool.not_true, Bool.or_self, Bool.or_false, Bool.false_or, Bool.false_eq_true,
    if_false]

theorem parseNodeLine_entryLine {e : MemoryIndexEntry} (h : entryOK e = true) :
    parseNodeLine (entryLine e) = some (e.title, e.filePath, e.keywords) := by
  obtain ⟨hT, hP, hKne, hKall⟩ := entryOK_parts h
  obtain ⟨hTt, hTc⟩ := titleOK_parts hT
  obtain ⟨hPt, hPc⟩ := pathOK_parts hP
  have hJh := joinWith_head hKne hKall
  have hJr := joinWith_rev_head hKne hKall
  have hJdot : (joinWith ", ".data e.keywords).all isLineDotChar = true := by
    rw [List.all_eq_true]
    intro c hc
    rcases mem_joinWith hc with hm | ⟨k, hk, hck⟩
    · have hm2 : c = ',' ∨ c = ' ' := by simpa using hm
      rcases hm2 with rfl | rfl <;> decide
    · exact isLineDotChar_of_charOK ((keywordOK_parts (hKall k hk)).2 c hck).1
  have hJt : trimStable (joinWith ", ".data e.keywords) = true := by
    rw [trimStable, Bool.and_eq_true]
    exact ⟨hJh, hJr⟩
  have hline : entryLine e = '-' :: ' ' :: '[' ::
      (e.title ++ ']' :: '(' ::
        (e.filePath ++ ')' :: ' ' :: '-' :: ' ' :: 'k' :: 'e' :: 'y' :: 'w' :: 'o' ::
         'r' :: 'd' :: 's' :: ':' :: ' ' :: joinWith ", ".data e.keywords)) := by
    rw [entryLine, show "- [".data = ['-', ' ', '['] from rfl,
      show "](".data = [']', '('] from rfl,
      show ") - keywords: ".data =
        [')', ' ', '-', ' ', 'k', 'e', 'y', 'w', 'o', 'r', 'd', 's', ':', ' '] from rfl]
    simp [List.append_assoc]
  rw [hline, parseNodeLine_shape e.title e.filePath _
    (fun c hc => (hTc c hc).2) (headNotSpace_ne_nil (trimStable_parts hTt).1)
    (fun c hc => (hPc c hc).2) (headNotSpace_ne_nil (trimStable_parts hPt).1)
    hJh hJr hJdot]
  rw [jsTrim_eq_self hTt, jsTrim_eq_self hPt, jsTrim_eq_self hJt,
    splitComma_join_map hKne hKall]

-- ===========================================================================
-- Claim C1 helper lemmas: line handling and folding
-- ===========================================================================

theorem parseIndexLine_entryLine {e : MemoryIndexEntry} (h : entryOK e = true)
    (now : Nat) (st : MemoryTier × MemoryIndex) :
    parseIndexLine now st (entryLine e) = (st.1,
      { st.2 with
        nodes := recSet st.2.nodes (slugOf e.title)
          ⟨slugOf e.title, e.title, e.keywords, st.1, e.filePath, now, now⟩,
        keywordMap := e.keywords.foldl
          (fun m kw => kwMapAdd m kw (slugOf e.title)) st.2.keywordMap }) := by
  have hhash := hash_not_mem_entryLine h
  simp only [parseIndexLine, jsTrim_entryLine h,
    infixOf_hash_false (by decide : '#' ∈ "## core".data) hhash,
    infixOf_hash_false (by decide : '#' ∈ "## contextual".data) hhash,
    infixOf_hash_false (by decide : '#' ∈ "## archival".data) hhash,
    Bool.false_eq_true, if_false, parseNodeLine_entryLine h]

theorem parseIndexLine_header (now : Nat) (st : MemoryTier × MemoryIndex) :
    ∀ t : MemoryTier, parseIndexLine now st (tierHeaderLine t) = (t, st.2) := by
  intro t
  cases t <;> rfl

theorem parseIndexLine_blank (now : Nat) (st : MemoryTier × MemoryIndex) :
    parseIndexLine now st [] = st := rfl

theorem fold_parse_entries (now : Nat) :
    ∀ (es : List MemoryIndexEntry) (t : MemoryTier) (idx : MemoryIndex),
      (∀ e ∈ es, entryOK e = true ∧ e.id = slugOf e.title) →
      (idx.nodes.map Prod.fst ++ es.map (fun e => e.id)).Nodup →
      ∃ km, (es.map entryLine).foldl (parseIndexLine now) (t, idx) =
        (t, ⟨idx.version, idx.nodes ++ es.map (fun e => (e.id, reEntry t now e)), km⟩) := by
  intro es
  induction es with
  | nil =>
    intro t idx _ _
    exact ⟨idx.keywordMap, by simp⟩
  | cons e es ih =>
    intro t idx hok hnd
    obtain ⟨hoke, hide⟩ := hok e (by simp)
    have hkey : e.id ∉ idx.nodes.map Prod.fst := by
      intro hmem
      rw [List.nodup_append] at hnd
      exact hnd.2.2 hmem (by simp)
    have hset : recSet idx.nodes (slugOf e.title)
        ⟨slugOf e.title, e.title, e.keywords, t, e.filePath, now, now⟩ =
        idx.nodes ++ [(e.id, reEntry t now e)] := by
      rw [← hide, reEntry]
      exact recSet_of_not_mem_keys _ hkey
    obtain ⟨km, hkm⟩ := ih t
      ⟨idx.version, idx.nodes ++ [(e.id, reEntry t now e)],
        e.keywords.foldl (fun m kw => kwMapAdd m kw (slugOf e.title)) idx.keywordMap⟩
      (fun e2 he2 => hok e2 (by simp [he2]))
      (by
        have heq : (idx.nodes ++ [(e.id, reEntry t now e)]).map Prod.fst ++
            es.map (fun e => e.id) =
            idx.nodes.map Prod.fst ++ (e.id :: es.map (fun e => e.id)) := by
          simp
        rw [show ((⟨idx.version, idx.nodes ++ [(e.id, reEntry t now e)],
            e.keywords.foldl (fun m kw => kwMapAdd m kw (slugOf e.title))
              idx.keywordMap⟩ : MemoryIndex)).nodes =
          idx.nodes ++ [(e.id, reEntry t now e)] from rfl, heq]
        simpa using hnd)
    refine ⟨km, ?_⟩
    rw [List.map_cons, List.foldl_cons, parseIndexLine_entryLine hoke, hset]
    refine Eq.trans (?_ : _ = (t, (⟨idx.version,
        idx.nodes ++ [(e.id, reEntry t now e)] ++ es.map (fun e => (e.id, reEntry t now e)),
        km⟩ : MemoryIndex))) ?_
    · exact hkm
    · rw [List.append_assoc, List.singleton_append, List.map_cons]

theorem fold_parse_tierBlock (now : Nat) (idx : MemoryIndex) (t : MemoryTier)
    (tprev : MemoryTier) (acc : MemoryIndex)
    (hok : ∀ e ∈ (idx.nodes.map Prod.snd).filter (fun n => decide (n.tier = t)),
      entryOK e = true ∧ e.id = slugOf e.title)
    (hnd : (acc.nodes.map Prod.fst ++
      ((idx.nodes.map Prod.snd).filter (fun n => decide (n.tier = t))).map
        (fun e => e.id)).Nodup) :
    ∃ t' km, (tierBlock idx t).foldl (parseIndexLine now) (tprev, acc) =
      (t', ⟨acc.version, acc.nodes ++
        ((idx.nodes.map Prod.snd).filter (fun n => decide (n.tier = t))).map
          (fun e => (e.id, reEntry t now e)), km⟩) := by
  by_cases hv : (idx.nodes.map Prod.snd).filter (fun n => decide (n.tier = t)) = []
  · refine ⟨tprev, acc.keywordMap, ?_⟩
    simp [tierBlock, hv]
  · obtain ⟨km, hkm⟩ := fold_parse_entries now
      ((idx.nodes.map Prod.snd).filter (fun n => decide (n.tier = t))) t acc hok hnd
    refine ⟨t, km, ?_⟩
    simp only [tierBlock, if_neg hv]
    rw [List.foldl_append, List.foldl_append]
    rw [show ([tierHeaderLine t, []].foldl (parseIndexLine now) (tprev, acc)) = (t, acc) from by
      rw [List.foldl_cons, parseIndexLine_header now (tprev, acc) t, List.foldl_cons,
        parseIndexLine_blank, List.foldl_nil]]
    rw [hkm, List.foldl_cons, parseIndexLine_blank, List.foldl_nil]

theorem vals_partition (idx : MemoryIndex) :
    ((idx.nodes.map Prod.snd).filter (fun n => decide (n.tier = .core)) ++
     (idx.nodes.map Prod.snd).filter (fun n => decide (n.tier = .contextual)) ++
     (idx.nodes.map Prod.snd).filter (fun n => decide (n.tier = .archival))).Perm
      (idx.nodes.map Prod.snd) := by
  have h1 : ((idx.nodes.map Prod.snd).filter (fun n => decide (n.tier = .core)) ++
      (idx.nodes.map Prod.snd).filter (fun n => !decide (n.tier = .core))).Perm
        (idx.nodes.map Prod.snd) :=
    List.filter_append_perm _ _
  have h2 : (((idx.nodes.map Prod.snd).filter (fun n => !decide (n.tier = .core))).filter
        (fun n => decide (n.tier = .contextual)) ++
      ((idx.nodes.map Prod.snd).filter (fun n => !decide (n.tier = .core))).filter
        (fun n => !decide (n.tier = .contextual))).Perm
        ((idx.nodes.map Prod.snd).filter (fun n => !decide (n.tier = .core))) :=
    List.filter_append_perm _ _
  have hx : ((idx.nodes.map Prod.snd).filter (fun n => !decide (n.tier = .core))).filter
      (fun n => decide (n.tier = .contextual)) =
      (idx.nodes.map Prod.snd).filter (fun n => decide (n.tier = .contextual)) := by
    rw [List.filter_filter]
    exact List.filter_congr (fun n _ => by cases h : n.tier <;> simp [h])
  have ha : ((idx.nodes.map Prod.snd).filter (fun n => !decide (n.tier = .core))).filter
      (fun n => !decide (n.tier = .contextual)) =
      (idx.nodes.map Prod.snd).filter (fun n => decide (n.tier = .archival)) := by
    rw [List.filter_filter]
    exact List.filter_congr (fun n _ => by cases h : n.tier <;> simp [h])
  rw [List.append_assoc]
  refine List.Perm.trans (List.Perm.append_left _ ?_) h1
  rw [← hx, ← ha]
  exact h2

theorem parsed_ids_nodup (idx : MemoryIndex) (h : indexOK idx) :
    (((idx.nodes.map Prod.snd).filter (fun n => decide (n.tier = .core))).map
        (fun e => e.id) ++
     ((idx.nodes.map Prod.snd).filter (fun n => decide (n.tier = .contextual))).map
        (fun e => e.id) ++
     ((idx.nodes.map Prod.snd).filter (fun n => decide (n.tier = .archival))).map
        (fun e => e.id)).Nodup := by
  obtain ⟨hne, hnd, hptr⟩ := h
  have hperm := (vals_partition idx).map (fun e => e.id)
  rw [List.map_append, List.map_append] at hperm
  have hkeys : (idx.nodes.map Prod.snd).map (fun e => e.id) = idx.nodes.map Prod.fst := by
    rw [List.map_map]
    exact List.map_congr_left (fun p hp => ((hptr p hp).1).symm)
  rw [hkeys] at hperm
  exact hperm.symm.nodup hnd

theorem tierBlock_lines {idx : MemoryIndex} {t : MemoryTier} {l : Str}
    (hl : l ∈ tierBlock idx t) :
    l = tierHeaderLine t ∨ l = [] ∨
      ∃ e ∈ (idx.nodes.map Prod.snd).filter (fun n => decide (n.tier = t)),
        l = entryLine e := by
  by_cases hv : (idx.nodes.map Prod.snd).filter (fun n => decide (n.tier = t)) = []
  · simp only [tierBlock, if_pos hv] at hl
    exact absurd hl (List.not_mem_nil l)
  · simp only [tierBlock, if_neg hv] at hl
    rcases List.mem_append.mp hl with hl | hl
    · rcases List.mem_append.mp hl with hl | hl
      · rcases List.mem_cons.mp hl with hl | hl
        · exact Or.inl hl
        · rcases List.mem_cons.mp hl with hl | hl
          · exact Or.inr (Or.inl hl)
          · exact absurd hl (List.not_mem_nil l)
      · rcases List.mem_map.mp hl with ⟨e, he, heq⟩
        exact Or.inr (Or.inr ⟨e, he, heq.symm⟩)
    · rcases List.mem_cons.mp hl with hl | hl
      · exact Or.inr (Or.inl hl)
      · exact absurd hl (List.not_mem_nil l)

theorem serLines_no_newline (idx : MemoryIndex)
    (h : ∀ p ∈ idx.nodes, entryOK p.2 = true) :
    ∀ l ∈ serLines idx, ('\n') ∉ l := by
  intro l hl
  have hblock : ∀ t, l ∈ tierBlock idx t → ('\n') ∉ l := by
    intro t hlb
    rcases tierBlock_lines hlb with rfl | rfl | ⟨e, he, rfl⟩
    · cases t <;> decide
    · simp
    · have hmem : e ∈ idx.nodes.map Prod.snd := List.mem_of_mem_filter he
      rcases List.mem_map.mp hmem with ⟨p, hp, rfl⟩
      exact newline_not_mem_entryLine (h p hp)
  rw [serLines] at hl
  rcases List.mem_append.mp hl with hl | hl
  · rcases List.mem_append.mp hl with hl | hl
    · rcases List.mem_append.mp hl with hl | hl
      · simp only [List.mem_cons, List.not_mem_nil, or_false] at hl
        rcases hl with rfl | rfl | rfl | rfl
        · decide
        · simp
        · decide
        · simp
      · exact hblock .core hl
    · exact hblock .contextual hl
  · exact hblock .archival hl

theorem splitNewline_join :
    ∀ {ls : List Str}, ls ≠ [] → (∀ l ∈ ls, ('\n') ∉ l) →
      splitNewline (joinWith "\n".data ls) = ls := by
  intro ls
  induction ls with
  | nil => intro h _; exact absurd rfl h
  | cons x xs ih =>
    intro _ hall
    cases xs with
    | nil =>
      show splitOnChar '\n' (joinWith "\n".data [x]) = [x]
      exact splitOnChar_not_mem (hall x (by simp))
    | cons y ys =>
      rw [joinWith_cons₂]
      show splitOnChar '\n' (x ++ "\n".data ++ joinWith "\n".data (y :: ys)) = x :: y :: ys
      rw [show ("\n".data : Str) = ['\n'] from rfl, List.append_assoc, List.singleton_append]
      rw [splitOnChar_append _ (hall x (by simp))]
      rw [show splitOnChar '\n' (joinWith ['\n'] (y :: ys)) = y :: ys from
        ih (by simp) (fun l hl => hall l (List.mem_cons_of_mem x hl))]

theorem fold_parse_base (now : Nat) :
    (["# Memory Index".data, ([] : Str),
      "> Auto-generated by Core Memory System. Edit with care.".data,
      ([] : Str)].foldl (parseIndexLine now)
        (.contextual, ⟨1, [], []⟩) : MemoryTier × MemoryIndex) =
      (.contextual, ⟨1, [], []⟩) := rfl

theorem parse_serialize (idx : MemoryIndex) (h : indexOK idx) (now : Nat) :
    ∃ km, parseMemoryIndexMarkdown now (serializeMemoryIndexToMarkdown idx) =
      ⟨1,
        ((idx.nodes.map Prod.snd).filter (fun n => decide (n.tier = .core))).map
          (fun e => (e.id, reEntry .core now e)) ++
        ((idx.nodes.map Prod.snd).filter (fun n => decide (n.tier = .contextual))).map
          (fun e => (e.id, reEntry .contextual now e)) ++
        ((idx.nodes.map Prod.snd).filter (fun n => decide (n.tier = .archival))).map
          (fun e => (e.id, reEntry .archival now e)), km⟩ := by
  obtain ⟨hne, hnd, hptr⟩ := h
  have hok : ∀ t : MemoryTier,
      ∀ e ∈ (idx.nodes.map Prod.snd).filter (fun n => decide (n.tier = t)),
        entryOK e = true ∧ e.id = slugOf e.title := by
    intro t e he
    rcases List.mem_map.mp (List.mem_of_mem_filter he) with ⟨p, hp, rfl⟩
    exact ⟨(hptr p hp).2.2, (hptr p hp).2.1⟩
  have hall := parsed_ids_nodup idx ⟨hne, hnd, hptr⟩
  have hkc : ∀ t : MemoryTier,
      (((idx.nodes.map Prod.snd).filter (fun n => decide (n.tier = t))).map
        (fun e => (e.id, reEntry t now e))).map Prod.fst =
      ((idx.nodes.map Prod.snd).filter (fun n => decide (n.tier = t))).map
        (fun e => e.id) := by
    intro t; rw [List.map_map]; rfl
  have h1ex : ∃ t' km, (tierBlock idx .core).foldl (parseIndexLine now)
      (.contextual, ⟨1, [], []⟩) =
      (t', (⟨1,
        ((idx.nodes.map Prod.snd).filter (fun n => decide (n.tier = .core))).map
          (fun e => (e.id, reEntry .core now e)), km⟩ : MemoryIndex)) :=
    fold_parse_tierBlock now idx .core .contextual ⟨1, [], []⟩ (hok .core)
      (by
        simp only [List.map_nil, List.nil_append]
        exact List.Nodup.sublist
          ((List.sublist_append_left _ _).trans (List.sublist_append_left _ _)) hall)
  obtain ⟨t1, km1, h1⟩ := h1ex
  have h2ex : ∃ t' km, (tierBlock idx .contextual).foldl (parseIndexLine now)
      (t1, ⟨1,
        ((idx.nodes.map Prod.snd).filter (fun n => decide (n.tier = .core))).map
          (fun e => (e.id, reEntry .core now e)), km1⟩) =
      (t', (⟨1,
        ((idx.nodes.map Prod.snd).filter (fun n => decide (n.tier = .core))).map
          (fun e => (e.id, reEntry .core now e)) ++
        ((idx.nodes.map Prod.snd).filter (fun n => decide (n.tier = .contextual))).map
          (fun e => (e.id, reEntry .contextual now e)), km⟩ : MemoryIndex)) :=
    fold_parse_tierBlock now idx .contextual t1 _ (hok .contextual)
      (by
        simp only [hkc]
        exact List.Nodup.sublist (List.sublist_append_left _ _) hall)
  obtain ⟨t2, km2, h2⟩ := h2ex
  have h3ex : ∃ t' km, (tierBlock idx .archival).foldl (parseIndexLine now)
      (t2, ⟨1,
        ((idx.nodes.map Prod.snd).filter (fun n => decide (n.tier = .core))).map
          (fun e => (e.id, reEntry .core now e)) ++
        ((idx.nodes.map Prod.snd).filter (fun n => decide (n.tier = .contextual))).map
          (fun e => (e.id, reEntry .contextual now e)), km2⟩) =
      (t', (⟨1,
        ((idx.nodes.map Prod.snd).filter (fun n => decide (n.tier = .core))).map
          (fun e => (e.id, reEntry .core now e)) ++
        ((idx.nodes.map Prod.snd).filter (fun n => decide (n.tier = .contextual))).map
          (fun e => (e.id, reEntry .contextual now e)) ++
        ((idx.nodes.map Prod.snd).filter (fun n => decide (n.tier = .archival))).map
          (fun e => (e.id, reEntry .archival now e)), km⟩ : MemoryIndex)) :=
    fold_parse_tierBlock now idx .archival t2 _ (hok .archival)
      (by
        simp only [List.map_append, hkc]
        exact hall)
  obtain ⟨t3, km3, h3⟩ := h3ex
  refine ⟨km3, ?_⟩
  simp only [parseMemoryIndexMarkdown, serializeMemoryIndexToMarkdown]
  rw [splitNewline_join (by simp [serLines])
    (serLines_no_newline idx (fun p hp => (hptr p hp).2.2))]
  simp only [serLines]
  rw [List.foldl_append, List.foldl_append, List.foldl_append, fold_parse_base,
    h1, h2, h3]

theorem filter_map_reEntry_self (now : Nat) (t : MemoryTier)
    (vs : List MemoryIndexEntry) :
    (vs.map (reEntry t now)).filter (fun n => decide (n.tier = t)) =
      vs.map (reEntry t now) :=
  List.filter_eq_self.mpr (fun e he => by
    rcases List.mem_map.mp he with ⟨v, _, rfl⟩
    simp [reEntry])

theorem filter_map_reEntry_ne (now : Nat) (t t' : MemoryTier) (hne : t ≠ t')
    (vs : List MemoryIndexEntry) :
    (vs.map (reEntry t now)).filter (fun n => decide (n.tier = t')) = [] := by
  rw [List.filter_eq_nil_iff]
  intro e he
  rcases List.mem_map.mp he with ⟨v, _, rfl⟩
  simp [reEntry, hne]

theorem entryLine_reEntry (t : MemoryTier) (now : Nat) (e : MemoryIndexEntry) :
    entryLine (reEntry t now e) = entryLine e := rfl

theorem tierBlock_parsed (idx : MemoryIndex) (now : Nat)
    (km : List (Str × List Str)) (t : MemoryTier) :
    tierBlock ⟨1,
      ((idx.nodes.map Prod.snd).filter (fun n => decide (n.tier = .core))).map
        (fun e => (e.id, reEntry .core now e)) ++
      ((idx.nodes.map Prod.snd).filter (fun n => decide (n.tier = .contextual))).map
        (fun e => (e.id, reEntry .contextual now e)) ++
      ((idx.nodes.map Prod.snd).filter (fun n => decide (n.tier = .archival))).map
        (fun e => (e.id, reEntry .archival now e)), km⟩ t = tierBlock idx t := by
  have hsnd : ((((idx.nodes.map Prod.snd).filter
        (fun n => decide (n.tier = .core))).map
          (fun e => (e.id, reEntry .core now e)) ++
      ((idx.nodes.map Prod.snd).filter (fun n => decide (n.tier = .contextual))).map
        (fun e => (e.id, reEntry .contextual now e)) ++
      ((idx.nodes.map Prod.snd).filter (fun n => decide (n.tier = .archival))).map
        (fun e => (e.id, reEntry .archival now e))).map Prod.snd) =
      ((idx.nodes.map Prod.snd).filter (fun n => decide (n.tier = .core))).map
        (reEntry .core now) ++
      ((idx.nodes.map Prod.snd).filter (fun n => decide (n.tier = .contextual))).map
        (reEntry .contextual now) ++
      ((idx.nodes.map Prod.snd).filter (fun n => decide (n.tier = .archival))).map
        (reEntry .archival now) := by
    simp only [List.map_append, List.map_map]
    rfl
  cases t with
  | core =>
    simp only [tierBlock, hsnd, List.filter_append,
      filter_map_reEntry_self now .core,
      filter_map_reEntry_ne now .contextual .core (by decide),
      filter_map_reEntry_ne now .archival .core (by decide),
      List.append_nil, List.nil_append]
    by_cases hv : (idx.nodes.map Prod.snd).filter
        (fun n => decide (n.tier = MemoryTier.core)) = []
    · rw [if_pos (by rw [hv]; rfl), if_pos hv]
    · rw [if_neg (fun hh => hv (List.map_eq_nil_iff.mp hh)), if_neg hv]
      congr 1
      congr 1
      rw [List.map_map]
      exact List.map_congr_left fun e _ => entryLine_reEntry _ _ _
  | contextual =>
    simp only [tierBlock, hsnd, List.filter_append,
      filter_map_reEntry_self now .contextual,
      filter_map_reEntry_ne now .core .contextual (by decide),
      filter_map_reEntry_ne now .archival .contextual (by decide),
      List.append_nil, List.nil_append]
    by_cases hv : (idx.nodes.map Prod.snd).filter
        (fun n => decide (n.tier = MemoryTier.contextual)) = []
    · rw [if_pos (by rw [hv]; rfl), if_pos hv]
    · rw [if_neg (fun hh => hv (List.map_eq_nil_iff.mp hh)), if_neg hv]
      congr 1
      congr 1
      rw [List.map_map]
      exact List.map_congr_left fun e _ => entryLine_reEntry _ _ _
  | archival =>
    simp only [tierBlock, hsnd, List.filter_append,
      filter_map_reEntry_self now .archival,
      filter_map_reEntry_ne now .core .archival (by decide),
      filter_map_reEntry_ne now .contextual .archival (by decide),
      List.append_nil, List.nil_append]
    by_cases hv : (idx.nodes.map Prod.snd).filter
        (fun n => decide (n.tier = MemoryTier.archival)) = []
    · rw [if_pos (by rw [hv]; rfl), if_pos hv]
    · rw [if_neg (fun hh => hv (List.map_eq_nil_iff.mp hh)), if_neg hv]
      congr 1
      congr 1
      rw [List.map_map]
      exact List.map_congr_left fun e _ => entryLine_reEntry _ _ _

/-- Claim C1 (counterexample): the round trip is not stable for every index
with a non-empty node set.  `idxBracket` holds one node whose title `a]b`
contains a closing bracket; its serialized entry line does not match the
entry pattern on reparse, so the node is dropped and the second
serialization differs from the first. -/
theorem claim_c1_counterexample :
    idxBracket.nodes ≠ [] ∧
    serializeMemoryIndexToMarkdown
      (parseMemoryIndexMarkdown 0 (serializeMemoryIndexToMarkdown idxBracket)) ≠
      serializeMemoryIndexToMarkdown idxBracket := by
  decide

/-- Claim C1 (amended): for every well-formed index — non-empty node map
keyed by the slug ids of its titles with distinct keys, trim-stable ASCII
titles free of `#`, line terminators and `]`, paths free of `)`, and
non-empty lower-case comma-free keywords — serializing, parsing the result
at any time, and serializing again yields exactly the first serialization:
keyword casing and tier grouping are stable across the round trip. -/
theorem claim_c1_amended (idx : MemoryIndex) (h : indexOK idx) (now : Nat) :
    serializeMemoryIndexToMarkdown
      (parseMemoryIndexMarkdown now (serializeMemoryIndexToMarkdown idx)) =
      serializeMemoryIndexToMarkdown idx := by
  obtain ⟨km, hkm⟩ := parse_serialize idx h now
  rw [hkm]
  show joinWith "\n".data (serLines _) = joinWith "\n".data (serLines idx)
  congr 1
  simp only [serLines]
  rw [tierBlock_parsed idx now km .core, tierBlock_parsed idx now km .contextual,
    tierBlock_parsed idx now km .archival]

theorem claim_c1_witness :
    indexOK idxPets ∧
    serializeMemoryIndexToMarkdown
      (parseMemoryIndexMarkdown 5 (serializeMemoryIndexToMarkdown idxPets)) =
      serializeMemoryIndexToMarkdown idxPets :=
  ⟨by unfold indexOK; decide, claim_c1_amended idxPets (by unfold indexOK; decide) 5⟩
